import Mathlib

/-
  Verification of the Four-Russians LCS implementation (four-russians.py).

  Shallow embedding conventions:
  * Python `str` is modelled as `List Char`; Python `int` as `ℤ`; Python's
    `defaultdict(int)` grids as maps with default value 0.
  * `construct_lcs_grid` fills cells in increasing (i, j) order and each cell
    depends only on strictly smaller cells, so the dict fill is embedded as a
    structural recursion on cell coordinates.  Note the Python source first
    writes `dp[(i,0)] = first_col[i]` for all i and then overwrites
    `dp[(0,j)] = first_row[j]` for all j, so cell (0,0) ends up holding
    `first_row[0]`; the embedding reproduces this.
  * On a character match the source sets
    `dp[(i,j)] = max(dp[(i,j)], dp[(i-1,j-1)] + 1)` where `dp[(i,j)]` is the
    defaultdict default 0 (the cell has not been written yet), hence the
    embedded `max 0 (diag + 1)`.
  * `int(math.log(n, 4))` is modelled as exact floor-log base 4 (`log4`), and
    the assertion `n / t == n // t` as exact divisibility `n % t = 0`.  For
    every padded length n = 2^k with n < 2^54 the floating-point expressions
    in the source agree with these exact models, and larger n are far beyond
    any executable input (precompute_grids would enumerate 100^27 keys).
  * An `AssertionError` escaping `four_russians` is modelled as `none`.
-/

namespace FourRussians

/-! ### Base grid filler: construct_lcs_grid -/

/-- One row of the LCS dp fill, as a function of the previous row.
`fillRow c v left prev j` is the value of cell (i, j) in the row of the
character `c = u[i-1]`, where `left = first_col[i]` and `prev` is row i-1. -/
def fillRow (c : Char) (v : List Char) (left : ℤ) (prev : ℕ → ℤ) : ℕ → ℤ
  | 0 => left
  | j + 1 =>
    if c = v.getD j 'A' then max 0 (prev j + 1)
    else max (prev (j + 1)) (fillRow c v left prev j)

/-- Row i of the dp grid built by construct_lcs_grid. -/
def lcsRow (u v : List Char) (first_col first_row : List ℤ) : ℕ → ℕ → ℤ
  | 0 => fun j => first_row.getD j 0
  | i + 1 => fillRow (u.getD i 'A') v (first_col.getD (i + 1) 0) (lcsRow u v first_col first_row i)

/-- Embedding of `construct_lcs_grid(u, v, first_col, first_row)[(i, j)]`.
All reads performed by the program are at i ≤ len(u), j ≤ len(v), where the
dict entry exists and holds this recurrence's value. -/
def construct_lcs_grid (u v : List Char) (first_col first_row : List ℤ) (i j : ℕ) : ℤ :=
  lcsRow u v first_col first_row i j

@[simp] theorem construct_zero (u v : List Char) (fc fr : List ℤ) (j : ℕ) :
    construct_lcs_grid u v fc fr 0 j = fr.getD j 0 := rfl

@[simp] theorem construct_succ_zero (u v : List Char) (fc fr : List ℤ) (i : ℕ) :
    construct_lcs_grid u v fc fr (i + 1) 0 = fc.getD (i + 1) 0 := rfl

theorem construct_succ_succ (u v : List Char) (fc fr : List ℤ) (i j : ℕ) :
    construct_lcs_grid u v fc fr (i + 1) (j + 1) =
      if u.getD i 'A' = v.getD j 'A' then
        max 0 (construct_lcs_grid u v fc fr i j + 1)
      else
        max (construct_lcs_grid u v fc fr i (j + 1)) (construct_lcs_grid u v fc fr (i + 1) j) := by
  simp only [construct_lcs_grid, lcsRow, fillRow]

/-! ### Enumeration of block contents and offset vectors -/

/-- The tuple `bases = ("A", "T", "C", "G", "$")` from precompute_grids. -/
def basesL : List Char := ['A', 'T', 'C', 'G', '$']

/-- The input alphabet from the spec (no sentinel). -/
def realBases : List Char := ['A', 'T', 'C', 'G']

/-- Embedding of the recursive generator `generate_strings(length, current_string)`
inside precompute_grids: all strings of the given length over `basesL`,
appended to the accumulator, in generator order. -/
def generate_strings : ℕ → List Char → List (List Char)
  | 0, cur => [cur]
  | l + 1, cur => basesL.flatMap fun b => generate_strings l (cur ++ [b])

/-- Embedding of `offset_vectors_generator(t, current_vector)`; the Python
generator stops when `len(current_vector) == t`, embedded here by counting
the remaining length. -/
def offset_vectors : ℕ → List ℤ → List (List ℤ)
  | 0, cur => [cur]
  | r + 1, cur => ([0, 1] : List ℤ).flatMap fun o => offset_vectors r (cur ++ [o])

/-- A key of the `grids` dictionary:
(u content, v content, first_row_offsets, first_col_offsets). -/
abbrev BlockKey := List Char × List Char × List ℤ × List ℤ

/-- The keys inserted into `grids` by the nested loops of precompute_grids,
in insertion order. -/
def precomputeKeys (t : ℕ) : List BlockKey :=
  (generate_strings t []).flatMap fun u =>
    (generate_strings t []).flatMap fun v =>
      (offset_vectors t []).flatMap fun ro =>
        (offset_vectors t []).map fun co => (u, v, ro, co)

/-- Embedding of `[sum(offsets[:i]) for i in range(t + 1)]` (with t the
length of the offset vector, as at every insertion site). -/
def cumsum (offs : List ℤ) : List ℤ :=
  (List.range (offs.length + 1)).map fun i => ((offs.take i).sum)

/-- Decidable characterization of the key set of the `grids` dictionary:
exactly the keys enumerated by precompute_grids (see `mem_precomputeKeys`). -/
def validKeyB (t : ℕ) : BlockKey → Bool
  | (u, v, ro, co) =>
    (u.length == t) && u.all (fun c => basesL.contains c) &&
    ((v.length == t) && v.all (fun c => basesL.contains c)) &&
    ((ro.length == t) && ro.all (fun o => o == 0 || o == 1)) &&
    ((co.length == t) && co.all (fun o => o == 0 || o == 1))

/-- Embedding of lookups into the dictionary returned by `precompute_grids(t)`.
A present key (u, v, ro, co) maps to
`construct_lcs_grid(u, v, cumsum(co), cumsum(ro))`; a missing key maps (via
the `defaultdict(defaultdict)` default and the `.get(..., 0)` reads at the
use site) to the all-zero grid. -/
def precompute_grids (t : ℕ) (k : BlockKey) : ℕ → ℕ → ℤ :=
  if validKeyB t k then
    construct_lcs_grid k.1 k.2.1 (cumsum k.2.2.2) (cumsum k.2.2.1)
  else fun _ _ => 0

/-! ### Arithmetic helpers of four_russians -/

/-- The `while next_power_of_2 < max(m, n): next_power_of_2 *= 2` loop,
with fuel (the loop doubles starting from 1, so `target` iterations more
than suffice). -/
def nextPowAux : ℕ → ℕ → ℕ → ℕ
  | 0, _, cur => cur
  | fuel + 1, target, cur => if cur < target then nextPowAux fuel target (2 * cur) else cur

/-- Smallest value reached by the doubling loop: the padded length. -/
def next_power_of_2 (target : ℕ) : ℕ := nextPowAux target target 1

/-- Exact model of `int(math.log(n, 4))`: floor of log base 4, with fuel. -/
def log4Aux : ℕ → ℕ → ℕ
  | 0, _ => 0
  | fuel + 1, n => if n < 4 then 0 else log4Aux fuel (n / 4) + 1

def log4 (n : ℕ) : ℕ := log4Aux n n

/-! ### The main F grid (defaultdict(int)) as an association list -/

/-- The main dp grid F, a `defaultdict(int)`: most recent write first. -/
abbrev FMap := List ((ℕ × ℕ) × ℤ)

/-- Reading `F[(p)]`: the most recent write, or the default 0. -/
def fget : FMap → ℕ × ℕ → ℤ
  | [], _ => 0
  | (q, x) :: rest, p => if p = q then x else fget rest p

/-- Writing `F[p] = x`. -/
def fset (F : FMap) (p : ℕ × ℕ) (x : ℤ) : FMap := (p, x) :: F

/-- The initialization loop `F[(i,0)] = 0; F[(0,i)] = 0` for i in range(n+1). -/
def initF (n : ℕ) : FMap :=
  (List.range (n + 1)).foldl (fun F i => fset (fset F (i, 0) 0) (0, i) 0) []

/-- Python slice `s[a : a + t]`. -/
def chunk (s : List Char) (a t : ℕ) : List Char := (s.drop a).take t

/-- `first_row_offsets`: consecutive differences of F along the block's top
edge, `F[(it, jt+k+1)] - F[(it, jt+k)]` for k in range(t). -/
def rowOffsets (F : FMap) (it jt t : ℕ) : List ℤ :=
  (List.range t).map fun k => fget F (it, jt + k + 1) - fget F (it, jt + k)

/-- `first_col_offsets`: consecutive differences of F along the block's left
edge. -/
def colOffsets (F : FMap) (it jt t : ℕ) : List ℤ :=
  (List.range t).map fun k => fget F (it + k + 1, jt) - fget F (it + k, jt)

/-- The body of the double loop of four_russians for block (i, j):
extract the offsets, look the block up, and write the block's bottom row and
right column into F (in the source's write order). -/
def blockStep (up vp : List Char) (t : ℕ) (F : FMap) (ij : ℕ × ℕ) : FMap :=
  let i := ij.1
  let j := ij.2
  let u_chunk := chunk up (i * t) t
  let v_chunk := chunk vp (j * t) t
  let fro := rowOffsets F (i * t) (j * t) t
  let fco := colOffsets F (i * t) (j * t) t
  let g := precompute_grids t (u_chunk, v_chunk, fro, fco)
  let offset := fget F (i * t, j * t)
  (List.range (t + 1)).foldl
    (fun Fa k =>
      fset (fset Fa (i * t + k, (j + 1) * t) (offset + g k t))
        ((i + 1) * t, j * t + k) (offset + g t k)) F

/-- The inner loop `for j in range(jc)` of the block assembly, for row i. -/
def rowBlocks (up vp : List Char) (t i : ℕ) (F : FMap) (jc : ℕ) : FMap :=
  (List.range jc).foldl (fun Fb j => blockStep up vp t Fb (i, j)) F

/-- The outer loop `for i in range(ic)` of the block assembly. -/
def allBlocks (up vp : List Char) (t sub np : ℕ) (ic : ℕ) : FMap :=
  (List.range ic).foldl (fun Fa i => rowBlocks up vp t i Fa sub) (initF np)

/-- Padded length n computed by four_russians. -/
def paddedLen (u v : List Char) : ℕ := next_power_of_2 (max u.length v.length)

/-- Block size t computed by four_russians (`int(math.log(n, 4))`; the
source guards `n > 0` but the padded length is always ≥ 1, and log4 0 = 0
anyway). -/
def blockSize (u v : List Char) : ℕ := log4 (paddedLen u v)

/-- Embedding of `four_russians(u, v)`.  `none` models the AssertionError
`number of subgrids must fit exactly into the overall grid`; the source
raises it before producing any result.  The precomputation
`grids = precompute_grids(t)` is pure and is embedded as the lookup function
`precompute_grids t` used inside `blockStep`. -/
def four_russians (u v : List Char) : Option ℤ :=
  let m := u.length
  let np := paddedLen u v
  let up := u ++ List.replicate (np - u.length) '$'
  let vp := v ++ List.replicate (np - v.length) '$'
  let t := blockSize u v
  if t = 0 then
    some (construct_lcs_grid up vp (List.replicate (np + 1) 0) (List.replicate (np + 1) 0) m np)
  else if np % t = 0 then
    let sub := np / t
    some (fget (allBlocks up vp t sub np sub) (m, np))
  else none

/-- The naive dynamic-programming reference: construct_lcs_grid on the raw
inputs with all-zero boundaries, read at the bottom-right corner. -/
def naiveLCS (u v : List Char) : ℤ :=
  construct_lcs_grid u v (List.replicate (u.length + 1) 0)
    (List.replicate (v.length + 1) 0) u.length v.length

/-! ### Boundary array predicates -/

/-- Every entry of the list is non-negative. -/
def nonnegL (l : List ℤ) : Prop := ∀ k < l.length, 0 ≤ l.getD k 0

/-- Consecutive differences are 0 or 1 (hence the list is monotone
non-decreasing). -/
def stepOk (l : List ℤ) : Prop :=
  ∀ k < l.length - 1, l.getD (k + 1) 0 - l.getD k 0 = 0 ∨ l.getD (k + 1) 0 - l.getD k 0 = 1

instance (l : List ℤ) : Decidable (nonnegL l) := by
  unfold nonnegL
  infer_instance

instance (l : List ℤ) : Decidable (stepOk l) := by
  unfold stepOk
  infer_instance

/-! ### The master invariant of the dp grid: non-negativity and the
Lipschitz-1 property in each direction. -/

theorem grid_master (u v : List Char) (fc fr : List ℤ)
    (hfc : fc.length = u.length + 1) (hfr : fr.length = v.length + 1)
    (hfcn : nonnegL fc) (hfrn : nonnegL fr)
    (hfcs : stepOk fc) (hfrs : stepOk fr)
    (h0 : fr.getD 0 0 = fc.getD 0 0) :
    ∀ i j, i ≤ u.length → j ≤ v.length →
      0 ≤ construct_lcs_grid u v fc fr i j ∧
      (∀ i', i = i' + 1 →
        construct_lcs_grid u v fc fr (i' + 1) j - construct_lcs_grid u v fc fr i' j = 0 ∨
        construct_lcs_grid u v fc fr (i' + 1) j - construct_lcs_grid u v fc fr i' j = 1) ∧
      (∀ j', j = j' + 1 →
        construct_lcs_grid u v fc fr i (j' + 1) - construct_lcs_grid u v fc fr i j' = 0 ∨
        construct_lcs_grid u v fc fr i (j' + 1) - construct_lcs_grid u v fc fr i j' = 1) := by
  suffices H : ∀ s i j, i + j = s → i ≤ u.length → j ≤ v.length →
      0 ≤ construct_lcs_grid u v fc fr i j ∧
      (∀ i', i = i' + 1 →
        construct_lcs_grid u v fc fr (i' + 1) j - construct_lcs_grid u v fc fr i' j = 0 ∨
        construct_lcs_grid u v fc fr (i' + 1) j - construct_lcs_grid u v fc fr i' j = 1) ∧
      (∀ j', j = j' + 1 →
        construct_lcs_grid u v fc fr i (j' + 1) - construct_lcs_grid u v fc fr i j' = 0 ∨
        construct_lcs_grid u v fc fr i (j' + 1) - construct_lcs_grid u v fc fr i j' = 1) by
    exact fun i j hi hj => H (i + j) i j rfl hi hj
  intro s
  induction s using Nat.strong_induction_on with
  | _ s ih =>
    intro i j hs hi hj
    rcases i with _ | a
    · rcases j with _ | b
      · refine ⟨by simpa using hfrn 0 (by omega), fun i' h => by omega, fun j' h => by omega⟩
      · refine ⟨by simpa using hfrn (b + 1) (by omega), fun i' h => by omega, ?_⟩
        intro j' h
        obtain rfl : j' = b := by omega
        simpa using hfrs j' (by omega)
    · rcases j with _ | b
      · refine ⟨by simpa using hfcn (a + 1) (by omega), ?_, fun j' h => by omega⟩
        intro i' h
        obtain rfl : i' = a := by omega
        rcases Nat.eq_zero_or_pos i' with rfl | hpos
        · rw [construct_succ_zero, construct_zero, h0]
          exact hfcs 0 (by omega)
        · obtain ⟨i₀, rfl⟩ := Nat.exists_eq_add_of_le hpos
          have he : 1 + i₀ = i₀ + 1 := by omega
          rw [he, construct_succ_zero, construct_succ_zero]
          exact hfcs (i₀ + 1) (by omega)
      · have hup := ih (a + (b + 1)) (by omega) a (b + 1) rfl (by omega) hj
        have hleft := ih ((a + 1) + b) (by omega) (a + 1) b rfl hi (by omega)
        have hdiag := ih (a + b) (by omega) a b rfl (by omega) (by omega)
        have hupn := hup.1
        have hleftn := hleft.1
        have hdiagn := hdiag.1
        have hupstep := hup.2.2 b rfl
        have hleftstep := hleft.2.1 a rfl
        have hmaxl := le_max_left (construct_lcs_grid u v fc fr a (b + 1))
          (construct_lcs_grid u v fc fr (a + 1) b)
        have hmaxr := le_max_right (construct_lcs_grid u v fc fr a (b + 1))
          (construct_lcs_grid u v fc fr (a + 1) b)
        have hmaxc := max_choice (construct_lcs_grid u v fc fr a (b + 1))
          (construct_lcs_grid u v fc fr (a + 1) b)
        refine ⟨?_, ?_, ?_⟩
        · rw [construct_succ_succ]
          split_ifs with hc
          · exact le_max_left 0 _
          · exact le_trans hupn (le_max_left _ _)
        · intro i' h
          obtain rfl : i' = a := by omega
          rw [construct_succ_succ]
          split_ifs with hc
          · rw [max_eq_right (by omega)]
            omega
          · rcases hmaxc with hm | hm <;> rw [hm] <;> omega
        · intro j' h
          obtain rfl : j' = b := by omega
          rw [construct_succ_succ]
          split_ifs with hc
          · rw [max_eq_right (by omega)]
            omega
          · rcases hmaxc with hm | hm <;> rw [hm] <;> omega

theorem grid_nonneg (u v : List Char) (fc fr : List ℤ)
    (hfc : fc.length = u.length + 1) (hfr : fr.length = v.length + 1)
    (hfcn : nonnegL fc) (hfrn : nonnegL fr) (hfcs : stepOk fc) (hfrs : stepOk fr)
    (h0 : fr.getD 0 0 = fc.getD 0 0) (i j : ℕ) (hi : i ≤ u.length) (hj : j ≤ v.length) :
    0 ≤ construct_lcs_grid u v fc fr i j :=
  (grid_master u v fc fr hfc hfr hfcn hfrn hfcs hfrs h0 i j hi hj).1

theorem grid_step_down (u v : List Char) (fc fr : List ℤ)
    (hfc : fc.length = u.length + 1) (hfr : fr.length = v.length + 1)
    (hfcn : nonnegL fc) (hfrn : nonnegL fr) (hfcs : stepOk fc) (hfrs : stepOk fr)
    (h0 : fr.getD 0 0 = fc.getD 0 0) (i j : ℕ) (hi : i + 1 ≤ u.length) (hj : j ≤ v.length) :
    construct_lcs_grid u v fc fr (i + 1) j - construct_lcs_grid u v fc fr i j = 0 ∨
    construct_lcs_grid u v fc fr (i + 1) j - construct_lcs_grid u v fc fr i j = 1 :=
  (grid_master u v fc fr hfc hfr hfcn hfrn hfcs hfrs h0 (i + 1) j hi hj).2.1 i rfl

theorem grid_step_right (u v : List Char) (fc fr : List ℤ)
    (hfc : fc.length = u.length + 1) (hfr : fr.length = v.length + 1)
    (hfcn : nonnegL fc) (hfrn : nonnegL fr) (hfcs : stepOk fc) (hfrs : stepOk fr)
    (h0 : fr.getD 0 0 = fc.getD 0 0) (i j : ℕ) (hi : i ≤ u.length) (hj : j + 1 ≤ v.length) :
    construct_lcs_grid u v fc fr i (j + 1) - construct_lcs_grid u v fc fr i j = 0 ∨
    construct_lcs_grid u v fc fr i (j + 1) - construct_lcs_grid u v fc fr i j = 1 :=
  (grid_master u v fc fr hfc hfr hfcn hfrn hfcs hfrs h0 i (j + 1) hi hj).2.2 j rfl

theorem grid_mono_down (u v : List Char) (fc fr : List ℤ)
    (hfc : fc.length = u.length + 1) (hfr : fr.length = v.length + 1)
    (hfcn : nonnegL fc) (hfrn : nonnegL fr) (hfcs : stepOk fc) (hfrs : stepOk fr)
    (h0 : fr.getD 0 0 = fc.getD 0 0) (i i' j : ℕ) (hii : i ≤ i') (hi : i' ≤ u.length)
    (hj : j ≤ v.length) :
    construct_lcs_grid u v fc fr i j ≤ construct_lcs_grid u v fc fr i' j := by
  induction i' with
  | zero => obtain rfl : i = 0 := by omega
            exact le_refl _
  | succ a iha =>
    rcases Nat.lt_or_ge i (a + 1) with hlt | hge
    · have h1 := iha (by omega) (by omega)
      have h2 := grid_step_down u v fc fr hfc hfr hfcn hfrn hfcs hfrs h0 a j hi hj
      omega
    · obtain rfl : i = a + 1 := by omega
      exact le_refl _

theorem grid_mono_right (u v : List Char) (fc fr : List ℤ)
    (hfc : fc.length = u.length + 1) (hfr : fr.length = v.length + 1)
    (hfcn : nonnegL fc) (hfrn : nonnegL fr) (hfcs : stepOk fc) (hfrs : stepOk fr)
    (h0 : fr.getD 0 0 = fc.getD 0 0) (i j j' : ℕ) (hjj : j ≤ j') (hi : i ≤ u.length)
    (hj : j' ≤ v.length) :
    construct_lcs_grid u v fc fr i j ≤ construct_lcs_grid u v fc fr i j' := by
  induction j' with
  | zero => obtain rfl : j = 0 := by omega
            exact le_refl _
  | succ b ihb =>
    rcases Nat.lt_or_ge j (b + 1) with hlt | hge
    · have h1 := ihb (by omega) (by omega)
      have h2 := grid_step_right u v fc fr hfc hfr hfcn hfrn hfcs hfrs h0 i b hi hj
      omega
    · obtain rfl : j = b + 1 := by omega
      exact le_refl _

/-! ### Upper bound for block grids (C8): every cell is at most max i j. -/

theorem grid_le_max (u v : List Char) (fc fr : List ℤ)
    (hfcb : ∀ i ≤ u.length, fc.getD i 0 ≤ (i : ℤ))
    (hfrb : ∀ j ≤ v.length, fr.getD j 0 ≤ (j : ℤ)) :
    ∀ i j, i ≤ u.length → j ≤ v.length →
      construct_lcs_grid u v fc fr i j ≤ (max i j : ℤ) := by
  suffices H : ∀ s i j, i + j = s → i ≤ u.length → j ≤ v.length →
      construct_lcs_grid u v fc fr i j ≤ (max i j : ℤ) by
    exact fun i j hi hj => H (i + j) i j rfl hi hj
  intro s
  induction s using Nat.strong_induction_on with
  | _ s ih =>
    intro i j hs hi hj
    rcases i with _ | a
    · rw [construct_zero]
      refine le_trans (hfrb j hj) ?_
      simp
    · rcases j with _ | b
      · rw [construct_succ_zero]
        refine le_trans (hfcb (a + 1) hi) ?_
        simp
      · rw [construct_succ_succ]
        have hdiag := ih (a + b) (by omega) a b rfl (by omega) (by omega)
        have hup := ih (a + (b + 1)) (by omega) a (b + 1) rfl (by omega) hj
        have hleft := ih ((a + 1) + b) (by omega) (a + 1) b rfl hi (by omega)
        split_ifs with hc
        · have hm1 : (max a b : ℤ) + 1 ≤ (max (a + 1) (b + 1) : ℤ) := by omega
          have : (0 : ℤ) ≤ (max (a + 1) (b + 1) : ℤ) := by positivity
          rcases max_choice (0 : ℤ) (construct_lcs_grid u v fc fr a b + 1) with hm | hm <;>
            rw [hm] <;> omega
        · have hm1 : (max a (b + 1) : ℤ) ≤ (max (a + 1) (b + 1) : ℤ) := by omega
          have hm2 : (max (a + 1) b : ℤ) ≤ (max (a + 1) (b + 1) : ℤ) := by omega
          rcases max_choice (construct_lcs_grid u v fc fr a (b + 1))
              (construct_lcs_grid u v fc fr (a + 1) b) with hm | hm <;> rw [hm] <;> omega

/-! ### The global padded grid with all-zero boundaries -/

/-- The full dp grid of the padded strings with all-zero boundaries; this is
the grid the `t = 0` branch of four_russians computes directly, and the grid
the block assembly reproduces at block boundaries. -/
def Gpad (up vp : List Char) (np i j : ℕ) : ℤ :=
  construct_lcs_grid up vp (List.replicate (np + 1) 0) (List.replicate (np + 1) 0) i j

@[simp] theorem getD_replicate_zero (n k : ℕ) :
    (List.replicate n (0 : ℤ)).getD k 0 = 0 := by
  rw [List.getD_eq_getElem?_getD, List.getElem?_replicate]
  split <;> rfl

theorem replicate_nonneg (n : ℕ) : nonnegL (List.replicate n (0 : ℤ)) := by
  intro k _; simp

theorem replicate_step (n : ℕ) : stepOk (List.replicate n (0 : ℤ)) := by
  intro k _; simp

@[simp] theorem Gpad_row0 (up vp : List Char) (np j : ℕ) : Gpad up vp np 0 j = 0 := by
  simp [Gpad]

@[simp] theorem Gpad_col0 (up vp : List Char) (np i : ℕ) : Gpad up vp np i 0 = 0 := by
  rcases i with _ | a <;> simp [Gpad]

theorem Gpad_nonneg (up vp : List Char) (np : ℕ) (hu : up.length = np) (hv : vp.length = np)
    (i j : ℕ) (hi : i ≤ np) (hj : j ≤ np) : 0 ≤ Gpad up vp np i j :=
  grid_nonneg up vp _ _ (by simp [hu]) (by simp [hv]) (replicate_nonneg _) (replicate_nonneg _)
    (replicate_step _) (replicate_step _) (by simp) i j (by omega) (by omega)

theorem Gpad_step_down (up vp : List Char) (np : ℕ) (hu : up.length = np) (hv : vp.length = np)
    (i j : ℕ) (hi : i + 1 ≤ np) (hj : j ≤ np) :
    Gpad up vp np (i + 1) j - Gpad up vp np i j = 0 ∨
    Gpad up vp np (i + 1) j - Gpad up vp np i j = 1 :=
  grid_step_down up vp _ _ (by simp [hu]) (by simp [hv]) (replicate_nonneg _) (replicate_nonneg _)
    (replicate_step _) (replicate_step _) (by simp) i j (by omega) (by omega)

theorem Gpad_step_right (up vp : List Char) (np : ℕ) (hu : up.length = np) (hv : vp.length = np)
    (i j : ℕ) (hi : i ≤ np) (hj : j + 1 ≤ np) :
    Gpad up vp np i (j + 1) - Gpad up vp np i j = 0 ∨
    Gpad up vp np i (j + 1) - Gpad up vp np i j = 1 :=
  grid_step_right up vp _ _ (by simp [hu]) (by simp [hv]) (replicate_nonneg _) (replicate_nonneg _)
    (replicate_step _) (replicate_step _) (by simp) i j (by omega) (by omega)

theorem Gpad_mono_down (up vp : List Char) (np : ℕ) (hu : up.length = np) (hv : vp.length = np)
    (i i' j : ℕ) (hii : i ≤ i') (hi : i' ≤ np) (hj : j ≤ np) :
    Gpad up vp np i j ≤ Gpad up vp np i' j :=
  grid_mono_down up vp _ _ (by simp [hu]) (by simp [hv]) (replicate_nonneg _) (replicate_nonneg _)
    (replicate_step _) (replicate_step _) (by simp) i i' j hii (by omega) (by omega)

theorem Gpad_mono_right (up vp : List Char) (np : ℕ) (hu : up.length = np) (hv : vp.length = np)
    (i j j' : ℕ) (hjj : j ≤ j') (hi : i ≤ np) (hj : j' ≤ np) :
    Gpad up vp np i j ≤ Gpad up vp np i j' :=
  grid_mono_right up vp _ _ (by simp [hu]) (by simp [hv]) (replicate_nonneg _) (replicate_nonneg _)
    (replicate_step _) (replicate_step _) (by simp) i j j' hjj (by omega) (by omega)

/-! ### Properties of cumsum -/

@[simp] theorem cumsum_length (offs : List ℤ) : (cumsum offs).length = offs.length + 1 := by
  simp [cumsum]

theorem cumsum_getD (offs : List ℤ) (k : ℕ) (hk : k < offs.length + 1) :
    (cumsum offs).getD k 0 = (offs.take k).sum := by
  simp [cumsum, List.getD_eq_getElem?_getD, List.getElem?_map, List.getElem?_range hk]

@[simp] theorem cumsum_zero (offs : List ℤ) : (cumsum offs).getD 0 0 = 0 := by
  simpa using cumsum_getD offs 0 (by omega)

theorem cumsum_succ_sub (offs : List ℤ) (k : ℕ) (hk : k < offs.length) :
    (cumsum offs).getD (k + 1) 0 - (cumsum offs).getD k 0 = offs.getD k 0 := by
  rw [cumsum_getD offs (k + 1) (by omega), cumsum_getD offs k (by omega)]
  rw [List.sum_take_succ _ _ hk]
  simp [List.getD_eq_getElem?_getD, List.getElem?_eq_getElem hk]

theorem cumsum_nonneg (offs : List ℤ) (h01 : ∀ o ∈ offs, o = 0 ∨ o = 1) : nonnegL (cumsum offs) := by
  intro k hk
  rw [cumsum_length] at hk
  rw [cumsum_getD offs k (by omega)]
  refine List.sum_nonneg ?_
  intro x hx
  rcases h01 x (List.mem_of_mem_take hx) with rfl | rfl <;> omega

theorem cumsum_stepOk (offs : List ℤ) (h01 : ∀ o ∈ offs, o = 0 ∨ o = 1) : stepOk (cumsum offs) := by
  intro k hk
  rw [cumsum_length] at hk
  rw [cumsum_succ_sub offs k (by omega)]
  rw [List.getD_eq_getElem _ _ (by omega)]
  exact h01 _ (List.getElem_mem _)

theorem cumsum_le (offs : List ℤ) (h01 : ∀ o ∈ offs, o = 0 ∨ o = 1) (k : ℕ)
    (hk : k < offs.length + 1) : (cumsum offs).getD k 0 ≤ (k : ℤ) := by
  rw [cumsum_getD offs k hk]
  have h1 : (offs.take k).sum ≤ (offs.take k).length • (1 : ℤ) := by
    refine List.sum_le_card_nsmul _ _ ?_
    intro x hx
    rcases h01 x (List.mem_of_mem_take hx) with rfl | rfl <;> omega
  have h2 : (offs.take k).length ≤ k := by simp [List.length_take]
  simp only [nsmul_eq_mul, mul_one] at h1
  omega

end FourRussians

namespace FourRussians

/-! ### List access helper lemmas -/

theorem getD_map_range (f : ℕ → ℤ) (n k : ℕ) (hk : k < n) :
    (((List.range n).map f).getD k 0) = f k := by
  simp [List.getD_eq_getElem?_getD, List.getElem?_map, List.getElem?_range hk]

theorem chunk_length (s : List Char) (r t : ℕ) (h : r + t ≤ s.length) :
    (chunk s r t).length = t := by
  simp [chunk, List.length_take, List.length_drop]
  omega

theorem chunk_getD (s : List Char) (r t k : ℕ) (hk : k < t) (hrk : r + k < s.length) :
    (chunk s r t).getD k 'A' = s.getD (r + k) 'A' := by
  rw [List.getD_eq_getElem?_getD, List.getD_eq_getElem?_getD, chunk,
    List.getElem?_take_of_lt hk, List.getElem?_drop]

theorem list_eq_of_getD {l1 l2 : List ℤ} (hlen : l1.length = l2.length)
    (h : ∀ k < l1.length, l1.getD k 0 = l2.getD k 0) : l1 = l2 := by
  refine List.ext_getElem hlen ?_
  intro k h1 h2
  have hk := h k h1
  rwa [List.getD_eq_getElem _ _ h1, List.getD_eq_getElem _ _ h2] at hk

theorem cumsum_telescope (offs : List ℤ) (D : ℕ → ℤ)
    (h : ∀ k < offs.length, offs.getD k 0 = D (k + 1) - D k) :
    ∀ k < offs.length + 1, (cumsum offs).getD k 0 = D k - D 0 := by
  intro k hk
  induction k with
  | zero => rw [cumsum_zero]; ring
  | succ a iha =>
    have h1 := cumsum_succ_sub offs a (by omega)
    have h2 := iha (by omega)
    have h3 := h a (by omega)
    omega

/-! ### Block locality: inside a block, the dp recurrence started from the
block's boundary values reproduces the global grid shifted by the corner
value. -/

theorem block_locality (up vp : List Char) (np : ℕ) (hu : up.length = np)
    (hv : vp.length = np) (r c t : ℕ) (hr : r + t ≤ np) (hc : c + t ≤ np) :
    ∀ a b, a ≤ t → b ≤ t →
      construct_lcs_grid (chunk up r t) (chunk vp c t)
        ((List.range (t + 1)).map fun k => Gpad up vp np (r + k) c - Gpad up vp np r c)
        ((List.range (t + 1)).map fun k => Gpad up vp np r (c + k) - Gpad up vp np r c)
        a b
      = Gpad up vp np (r + a) (c + b) - Gpad up vp np r c := by
  suffices H : ∀ s a b, a + b = s → a ≤ t → b ≤ t →
      construct_lcs_grid (chunk up r t) (chunk vp c t)
        ((List.range (t + 1)).map fun k => Gpad up vp np (r + k) c - Gpad up vp np r c)
        ((List.range (t + 1)).map fun k => Gpad up vp np r (c + k) - Gpad up vp np r c)
        a b
      = Gpad up vp np (r + a) (c + b) - Gpad up vp np r c by
    exact fun a b ha hb => H (a + b) a b rfl ha hb
  intro s
  induction s using Nat.strong_induction_on with
  | _ s ih =>
    intro a b hs ha hb
    rcases a with _ | a'
    · rw [construct_zero, getD_map_range _ _ b (by omega)]
      simp
    · rcases b with _ | b'
      · rw [construct_succ_zero, getD_map_range _ _ (a' + 1) (by omega)]
        simp
      · have hchu : (chunk up r t).getD a' 'A' = up.getD (r + a') 'A' :=
          chunk_getD up r t a' (by omega) (by omega)
        have hchv : (chunk vp c t).getD b' 'A' = vp.getD (c + b') 'A' :=
          chunk_getD vp c t b' (by omega) (by omega)
        have hdiag := ih (a' + b') (by omega) a' b' rfl (by omega) (by omega)
        have hup2 := ih (a' + (b' + 1)) (by omega) a' (b' + 1) rfl (by omega) hb
        have hleft2 := ih ((a' + 1) + b') (by omega) (a' + 1) b' rfl ha (by omega)
        have hGrw : Gpad up vp np (r + (a' + 1)) (c + (b' + 1)) =
            construct_lcs_grid up vp (List.replicate (np + 1) 0) (List.replicate (np + 1) 0)
              ((r + a') + 1) ((c + b') + 1) := by
          simp only [Gpad]
          ring_nf
        have hGup : Gpad up vp np (r + a') (c + (b' + 1)) = Gpad up vp np (r + a') ((c + b') + 1) := by
          ring_nf
        have hGleft : Gpad up vp np (r + (a' + 1)) (c + b') = Gpad up vp np ((r + a') + 1) (c + b') := by
          ring_nf
        have hcorner : 0 ≤ Gpad up vp np r c :=
          Gpad_nonneg up vp np hu hv r c (by omega) (by omega)
        have hmono : Gpad up vp np r c ≤ Gpad up vp np (r + a') (c + b') := by
          refine le_trans (Gpad_mono_down up vp np hu hv r (r + a') c (by omega) (by omega) (by omega)) ?_
          exact Gpad_mono_right up vp np hu hv (r + a') c (c + b') (by omega) (by omega) (by omega)
        rw [construct_succ_succ, hchu, hchv]
        rw [show Gpad up vp np (r + (a' + 1)) (c + (b' + 1)) =
          Gpad up vp np ((r + a') + 1) ((c + b') + 1) by ring_nf]
        rw [show Gpad up vp np ((r + a') + 1) ((c + b') + 1) =
          construct_lcs_grid up vp (List.replicate (np + 1) 0) (List.replicate (np + 1) 0)
            ((r + a') + 1) ((c + b') + 1) from rfl]
        rw [construct_succ_succ]
        split_ifs with hcc
        · rw [hdiag]
          have : construct_lcs_grid up vp (List.replicate (np + 1) 0)
              (List.replicate (np + 1) 0) (r + a') (c + b') = Gpad up vp np (r + a') (c + b') := rfl
          rw [this]
          omega
        · rw [hup2, hleft2, hGup, hGleft]
          have e1 : construct_lcs_grid up vp (List.replicate (np + 1) 0)
              (List.replicate (np + 1) 0) (r + a') ((c + b') + 1) =
              Gpad up vp np (r + a') ((c + b') + 1) := rfl
          have e2 : construct_lcs_grid up vp (List.replicate (np + 1) 0)
              (List.replicate (np + 1) 0) ((r + a') + 1) (c + b') =
              Gpad up vp np ((r + a') + 1) (c + b') := rfl
          rw [e1, e2]
          omega

end FourRussians

namespace FourRussians

/-! ### Padding lemmas: the sentinel padding does not change the value read
at (original length of u, padded length). -/

theorem padded_getD_left (u : List Char) (pad : List Char) (i : ℕ) (hi : i < u.length) :
    (u ++ pad).getD i 'A' = u.getD i 'A' := by
  rw [List.getD_eq_getElem?_getD, List.getD_eq_getElem?_getD, List.getElem?_append, if_pos hi]

theorem padded_getD_sentinel (u : List Char) (np : ℕ) (i : ℕ) (hi : u.length ≤ i)
    (hnp : i < np) :
    (u ++ List.replicate (np - u.length) '$').getD i 'A' = '$' := by
  rw [List.getD_eq_getElem?_getD, List.getElem?_append_right hi, List.getElem?_replicate]
  have : i - u.length < np - u.length := by omega
  simp [this]

theorem getD_mem_of_lt (u : List Char) (i : ℕ) (hi : i < u.length) : u.getD i 'A' ∈ u := by
  rw [List.getD_eq_getElem _ _ hi]
  exact List.getElem_mem _

/-- One sentinel column step: for rows i ≤ m (all of whose characters are
real), appending a sentinel column leaves the dp values unchanged. -/
theorem pad_col_step (up vp : List Char) (np m : ℕ) (hu : up.length = np)
    (hv : vp.length = np) (hm : m ≤ np)
    (hreal : ∀ i < m, up.getD i 'A' ≠ '$')
    (j : ℕ) (hj2 : j + 1 ≤ np) (hsent : vp.getD j 'A' = '$') :
    ∀ i ≤ m, Gpad up vp np i (j + 1) = Gpad up vp np i j := by
  intro i
  induction i with
  | zero => intro _; simp
  | succ i' ihi =>
    intro hi
    have h1 : Gpad up vp np (i' + 1) (j + 1) =
        construct_lcs_grid up vp (List.replicate (np + 1) 0) (List.replicate (np + 1) 0)
          (i' + 1) (j + 1) := rfl
    rw [h1, construct_succ_succ]
    have hne : ¬ up.getD i' 'A' = vp.getD j 'A' := by
      rw [hsent]
      exact hreal i' (by omega)
    rw [if_neg hne]
    have e1 : construct_lcs_grid up vp (List.replicate (np + 1) 0) (List.replicate (np + 1) 0)
        i' (j + 1) = Gpad up vp np i' (j + 1) := rfl
    have e2 : construct_lcs_grid up vp (List.replicate (np + 1) 0) (List.replicate (np + 1) 0)
        (i' + 1) j = Gpad up vp np (i' + 1) j := rfl
    rw [e1, e2, ihi (by omega)]
    exact max_eq_right (Gpad_mono_down up vp np hu hv i' (i' + 1) j (by omega) (by omega)
      (by omega))

/-- Sentinel columns collapse: the value at column np equals the value at
column n0 for rows of real characters. -/
theorem pad_cols (up vp : List Char) (np m n0 : ℕ) (hu : up.length = np)
    (hv : vp.length = np) (hm : m ≤ np) (hn0 : n0 ≤ np)
    (hreal : ∀ i < m, up.getD i 'A' ≠ '$')
    (hsent : ∀ j, n0 ≤ j → j < np → vp.getD j 'A' = '$') :
    ∀ j, n0 ≤ j → j ≤ np → ∀ i ≤ m, Gpad up vp np i j = Gpad up vp np i n0 := by
  intro j hjge
  induction j, hjge using Nat.le_induction with
  | base => intro _ i _; rfl
  | succ j hj ihj =>
    intro hj2 i hi
    rw [pad_col_step up vp np m hu hv hm hreal j hj2 (hsent j hj (by omega)) i hi]
    exact ihj (by omega) i hi

end FourRussians

namespace FourRussians

/-- On the original index ranges the padded zero-boundary grid agrees with
the naive grid of the unpadded strings. -/
theorem pad_agree (u v : List Char) (np : ℕ) (hm : u.length ≤ np) (hn : v.length ≤ np) :
    ∀ i ≤ u.length, ∀ j ≤ v.length,
      Gpad (u ++ List.replicate (np - u.length) '$') (v ++ List.replicate (np - v.length) '$')
        np i j
      = construct_lcs_grid u v (List.replicate (u.length + 1) 0)
          (List.replicate (v.length + 1) 0) i j := by
  suffices H : ∀ s i j, i + j = s → i ≤ u.length → j ≤ v.length →
      Gpad (u ++ List.replicate (np - u.length) '$') (v ++ List.replicate (np - v.length) '$')
        np i j
      = construct_lcs_grid u v (List.replicate (u.length + 1) 0)
          (List.replicate (v.length + 1) 0) i j by
    exact fun i hi j hj => H (i + j) i j rfl hi hj
  intro s
  induction s using Nat.strong_induction_on with
  | _ s ih =>
    intro i j hs hi hj
    rcases i with _ | a
    · simp
    · rcases j with _ | b
      · simp
      · have h1 : Gpad (u ++ List.replicate (np - u.length) '$')
            (v ++ List.replicate (np - v.length) '$') np (a + 1) (b + 1) =
            construct_lcs_grid (u ++ List.replicate (np - u.length) '$')
              (v ++ List.replicate (np - v.length) '$')
              (List.replicate (np + 1) 0) (List.replicate (np + 1) 0) (a + 1) (b + 1) := rfl
        rw [h1, construct_succ_succ, construct_succ_succ]
        rw [padded_getD_left u _ a (by omega), padded_getD_left v _ b (by omega)]
        have e0 := ih (a + b) (by omega) a b rfl (by omega) (by omega)
        have e1 := ih (a + (b + 1)) (by omega) a (b + 1) rfl (by omega) hj
        have e2 := ih ((a + 1) + b) (by omega) (a + 1) b rfl hi (by omega)
        rw [show construct_lcs_grid (u ++ List.replicate (np - u.length) '$')
            (v ++ List.replicate (np - v.length) '$')
            (List.replicate (np + 1) 0) (List.replicate (np + 1) 0) a b =
            Gpad (u ++ List.replicate (np - u.length) '$')
              (v ++ List.replicate (np - v.length) '$') np a b from rfl]
        rw [show construct_lcs_grid (u ++ List.replicate (np - u.length) '$')
            (v ++ List.replicate (np - v.length) '$')
            (List.replicate (np + 1) 0) (List.replicate (np + 1) 0) a (b + 1) =
            Gpad (u ++ List.replicate (np - u.length) '$')
              (v ++ List.replicate (np - v.length) '$') np a (b + 1) from rfl]
        rw [show construct_lcs_grid (u ++ List.replicate (np - u.length) '$')
            (v ++ List.replicate (np - v.length) '$')
            (List.replicate (np + 1) 0) (List.replicate (np + 1) 0) (a + 1) b =
            Gpad (u ++ List.replicate (np - u.length) '$')
              (v ++ List.replicate (np - v.length) '$') np (a + 1) b from rfl]
        rw [e0, e1, e2]

/-- Value of the padded zero-boundary grid at (len u, np): it equals the
naive dp value of the unpadded inputs, provided u contains no sentinel. -/
theorem padding_main (u v : List Char) (np : ℕ) (hm : u.length ≤ np) (hn : v.length ≤ np)
    (hureal : ∀ c ∈ u, c ∈ realBases) :
    Gpad (u ++ List.replicate (np - u.length) '$') (v ++ List.replicate (np - v.length) '$')
      np u.length np = naiveLCS u v := by
  set up := u ++ List.replicate (np - u.length) '$' with hup
  set vp := v ++ List.replicate (np - v.length) '$' with hvp
  have hu : up.length = np := by simp [hup]; omega
  have hv : vp.length = np := by simp [hvp]; omega
  have hreal : ∀ i < u.length, up.getD i 'A' ≠ '$' := by
    intro i hi
    rw [hup, padded_getD_left u _ i hi]
    have hmem := hureal (u.getD i 'A') (getD_mem_of_lt u i hi)
    intro hcontra
    rw [hcontra] at hmem
    exact absurd hmem (by decide)
  have hsent : ∀ j, v.length ≤ j → j < np → vp.getD j 'A' = '$' := by
    intro j hj1 hj2
    rw [hvp]
    exact padded_getD_sentinel v np j hj1 hj2
  have hcollapse := pad_cols up vp np u.length v.length hu hv hm hn hreal hsent np hn
    (le_refl np) u.length (le_refl _)
  rw [hcollapse]
  have := pad_agree u v np hm hn u.length (le_refl _) v.length (le_refl _)
  rw [hup, hvp] at *
  rw [this]
  rfl

end FourRussians

namespace FourRussians

/-! ### Lemmas about the F map -/

@[simp] theorem fget_fset_same (F : FMap) (p : ℕ × ℕ) (x : ℤ) : fget (fset F p x) p = x := by
  simp [fget, fset]

theorem fget_fset_ne (F : FMap) (p q : ℕ × ℕ) (x : ℤ) (h : q ≠ p) :
    fget (fset F p x) q = fget F q := by
  simp [fget, fset, h]

theorem fget_initF (n : ℕ) (p : ℕ × ℕ) : fget (initF n) p = 0 := by
  suffices H : ∀ (l : List ℕ) (F : FMap), (∀ q, fget F q = 0) →
      ∀ q, fget (l.foldl (fun Fa i => fset (fset Fa (i, 0) 0) (0, i) 0) F) q = 0 by
    exact H (List.range (n + 1)) [] (fun q => rfl) p
  intro l
  induction l with
  | nil => intro F hF q; exact hF q
  | cons a l ihl =>
    intro F hF q
    refine ihl _ ?_ q
    intro q'
    by_cases h1 : q' = (0, a)
    · subst h1; simp
    · rw [fget_fset_ne _ _ _ _ h1]
      by_cases h2 : q' = (a, 0)
      · subst h2; simp
      · rw [fget_fset_ne _ _ _ _ h2]; exact hF q'

/-- The edge cells written while processing the block with top-left corner
(r, c): its bottom-right column and row at distance t. -/
def isEdge (t r c : ℕ) (p : ℕ × ℕ) : Prop :=
  (∃ k ≤ t, p = (r + k, c + t)) ∨ (∃ k ≤ t, p = (r + t, c + k))

/-- Characterization of the write loop of a block: edge cells get the values
of the target function W (all written values agree with W), other cells keep
their old values. -/
theorem writeFold_fget (r c t : ℕ) (W : ℕ × ℕ → ℤ) (val1 val2 : ℕ → ℤ)
    (hv1 : ∀ k ≤ t, val1 k = W (r + k, c + t))
    (hv2 : ∀ k ≤ t, val2 k = W (r + t, c + k)) (F : FMap) :
    ∀ n, n ≤ t + 1 → ∀ p,
      fget ((List.range n).foldl (fun Fa k =>
        fset (fset Fa (r + k, c + t) (val1 k)) (r + t, c + k) (val2 k)) F) p
      = if (∃ k < n, p = (r + k, c + t)) ∨ (∃ k < n, p = (r + t, c + k))
        then W p else fget F p := by
  intro n
  induction n with
  | zero =>
    intro _ p
    rw [if_neg]
    · rfl
    · rintro (⟨k, hk, _⟩ | ⟨k, hk, _⟩) <;> omega
  | succ n ihn =>
    intro hn p
    rw [List.range_succ, List.foldl_append, List.foldl_cons, List.foldl_nil]
    by_cases hB : p = (r + t, c + n)
    · subst hB
      rw [fget_fset_same]
      rw [hv2 n (by omega), if_pos]
      right; exact ⟨n, by omega, rfl⟩
    · rw [fget_fset_ne _ _ _ _ hB]
      by_cases hA : p = (r + n, c + t)
      · subst hA
        rw [fget_fset_same, hv1 n (by omega), if_pos]
        left; exact ⟨n, by omega, rfl⟩
      · rw [fget_fset_ne _ _ _ _ hA]
        rw [ihn (by omega) p]
        by_cases hc : (∃ k < n, p = (r + k, c + t)) ∨ (∃ k < n, p = (r + t, c + k))
        · rw [if_pos hc, if_pos]
          rcases hc with ⟨k, hk, rfl⟩ | ⟨k, hk, rfl⟩
          · left; exact ⟨k, by omega, rfl⟩
          · right; exact ⟨k, by omega, rfl⟩
        · rw [if_neg hc, if_neg]
          rintro (⟨k, hk, rfl⟩ | ⟨k, hk, rfl⟩)
          · rcases Nat.lt_or_ge k n with h | h
            · exact hc (Or.inl ⟨k, h, rfl⟩)
            · obtain rfl : k = n := by omega
              exact hA rfl
          · rcases Nat.lt_or_ge k n with h | h
            · exact hc (Or.inr ⟨k, h, rfl⟩)
            · obtain rfl : k = n := by omega
              exact hB rfl

/-- The set of cells of F that have been written after the initialization
and after fully processing all blocks lexicographically before (i, j) in the
row-major order. -/
def writtenAt (np t sub i j : ℕ) (p : ℕ × ℕ) : Prop :=
  (p.2 = 0 ∧ p.1 ≤ np) ∨ (p.1 = 0 ∧ p.2 ≤ np) ∨
    ∃ bi bj, bi < sub ∧ bj < sub ∧ (bi < i ∨ (bi = i ∧ bj < j)) ∧ isEdge t (bi * t) (bj * t) p

theorem writtenAt_succ_j (np t sub i j : ℕ) (hi : i < sub) (hj : j < sub) (p : ℕ × ℕ) :
    writtenAt np t sub i (j + 1) p ↔ (writtenAt np t sub i j p ∨ isEdge t (i * t) (j * t) p) := by
  constructor
  · rintro (h | h | ⟨bi, bj, h1, h2, h3, h4⟩)
    · exact Or.inl (Or.inl h)
    · exact Or.inl (Or.inr (Or.inl h))
    · by_cases hb : bi = i ∧ bj = j
      · obtain ⟨rfl, rfl⟩ := hb
        exact Or.inr h4
      · refine Or.inl (Or.inr (Or.inr ⟨bi, bj, h1, h2, ?_, h4⟩))
        rcases h3 with h3 | ⟨rfl, h3⟩
        · exact Or.inl h3
        · refine Or.inr ⟨rfl, ?_⟩
          rcases Nat.lt_or_ge bj j with hlt | hge
          · exact hlt
          · exact absurd ⟨rfl, by omega⟩ hb
  · rintro ((h | h | ⟨bi, bj, h1, h2, h3, h4⟩) | h)
    · exact Or.inl h
    · exact Or.inr (Or.inl h)
    · refine Or.inr (Or.inr ⟨bi, bj, h1, h2, ?_, h4⟩)
      rcases h3 with h3 | ⟨rfl, h3⟩
      · exact Or.inl h3
      · exact Or.inr ⟨rfl, by omega⟩
    · exact Or.inr (Or.inr ⟨i, j, hi, hj, Or.inr ⟨rfl, by omega⟩, h⟩)

theorem writtenAt_row_advance (np t sub i : ℕ) (p : ℕ × ℕ) :
    writtenAt np t sub (i + 1) 0 p ↔ writtenAt np t sub i sub p := by
  constructor
  · rintro (h | h | ⟨bi, bj, h1, h2, h3, h4⟩)
    · exact Or.inl h
    · exact Or.inr (Or.inl h)
    · refine Or.inr (Or.inr ⟨bi, bj, h1, h2, ?_, h4⟩)
      rcases h3 with h3 | ⟨rfl, h3⟩
      · rcases Nat.lt_or_ge bi i with hlt | hge
        · exact Or.inl hlt
        · obtain rfl : bi = i := by omega
          exact Or.inr ⟨rfl, h2⟩
      · omega
  · rintro (h | h | ⟨bi, bj, h1, h2, h3, h4⟩)
    · exact Or.inl h
    · exact Or.inr (Or.inl h)
    · refine Or.inr (Or.inr ⟨bi, bj, h1, h2, Or.inl (by omega), h4⟩)

end FourRussians

namespace FourRussians

/-- Processing one block preserves the invariant that F agrees with the
global padded grid on all written cells, and extends it to the block's newly
written edges. -/
theorem blockStep_inv (up vp : List Char) (np t sub : ℕ)
    (hu : up.length = np) (hv : vp.length = np) (hnp : np = sub * t)
    (hub : ∀ c ∈ up, c ∈ basesL) (hvb : ∀ c ∈ vp, c ∈ basesL)
    (i j : ℕ) (hi : i < sub) (hj : j < sub) (F : FMap)
    (hF : ∀ p, writtenAt np t sub i j p → fget F p = Gpad up vp np p.1 p.2) :
    ∀ p, writtenAt np t sub i (j + 1) p →
      fget (blockStep up vp t F (i, j)) p = Gpad up vp np p.1 p.2 := by
  have hrt : i * t + t ≤ np := by
    rw [hnp, ← Nat.succ_mul]
    exact Nat.mul_le_mul_right t hi
  have hct : j * t + t ≤ np := by
    rw [hnp, ← Nat.succ_mul]
    exact Nat.mul_le_mul_right t hj
  -- the block's top edge and left edge have already been written and agree
  -- with the global grid
  have hTop : ∀ k, k ≤ t → fget F (i * t, j * t + k) = Gpad up vp np (i * t) (j * t + k) := by
    intro k hk
    have hw : writtenAt np t sub i j (i * t, j * t + k) := by
      rcases Nat.eq_zero_or_pos i with rfl | hipos
      · right; left
        constructor
        · simp
        · simp only
          omega
      · obtain ⟨i', rfl⟩ : ∃ i', i = i' + 1 := ⟨i - 1, by omega⟩
        right; right
        refine ⟨i', j, by omega, hj, Or.inl (by omega), Or.inr ⟨k, hk, ?_⟩⟩
        rw [Nat.succ_mul]
    exact hF _ hw
  have hLeft : ∀ k, k ≤ t → fget F (i * t + k, j * t) = Gpad up vp np (i * t + k) (j * t) := by
    intro k hk
    have hw : writtenAt np t sub i j (i * t + k, j * t) := by
      rcases Nat.eq_zero_or_pos j with rfl | hjpos
      · left
        constructor
        · simp
        · simp only
          omega
      · obtain ⟨j', rfl⟩ : ∃ j', j = j' + 1 := ⟨j - 1, by omega⟩
        right; right
        refine ⟨i, j', hi, by omega, Or.inr ⟨rfl, by omega⟩, Or.inl ⟨k, hk, ?_⟩⟩
        rw [Nat.succ_mul]
    exact hF _ hw
  have hoff : fget F (i * t, j * t) = Gpad up vp np (i * t) (j * t) := hTop 0 (by omega)
  -- the extracted offset vectors are the consecutive differences of the
  -- global grid along the edges, and all lie in 0/1
  have hfro_getD : ∀ k, k < t → (rowOffsets F (i * t) (j * t) t).getD k 0 =
      Gpad up vp np (i * t) (j * t + (k + 1)) - Gpad up vp np (i * t) (j * t + k) := by
    intro k hk
    rw [rowOffsets, getD_map_range _ _ k hk]
    have e1 : fget F (i * t, j * t + k + 1) = Gpad up vp np (i * t) (j * t + (k + 1)) :=
      hTop (k + 1) (by omega)
    have e2 : fget F (i * t, j * t + k) = Gpad up vp np (i * t) (j * t + k) :=
      hTop k (by omega)
    rw [e1, e2]
  have hfco_getD : ∀ k, k < t → (colOffsets F (i * t) (j * t) t).getD k 0 =
      Gpad up vp np (i * t + (k + 1)) (j * t) - Gpad up vp np (i * t + k) (j * t) := by
    intro k hk
    rw [colOffsets, getD_map_range _ _ k hk]
    have e1 : fget F (i * t + k + 1, j * t) = Gpad up vp np (i * t + (k + 1)) (j * t) :=
      hLeft (k + 1) (by omega)
    have e2 : fget F (i * t + k, j * t) = Gpad up vp np (i * t + k) (j * t) :=
      hLeft k (by omega)
    rw [e1, e2]
  have hfro01 : ∀ o ∈ rowOffsets F (i * t) (j * t) t, o = 0 ∨ o = 1 := by
    intro o ho
    obtain ⟨k, hkmem, rfl⟩ := List.mem_map.mp ho
    have hk := List.mem_range.mp hkmem
    have e1 : fget F (i * t, j * t + k + 1) = Gpad up vp np (i * t) ((j * t + k) + 1) :=
      hTop (k + 1) (by omega)
    have e2 : fget F (i * t, j * t + k) = Gpad up vp np (i * t) (j * t + k) :=
      hTop k (by omega)
    rw [e1, e2]
    exact Gpad_step_right up vp np hu hv (i * t) (j * t + k) (by omega) (by omega)
  have hfco01 : ∀ o ∈ colOffsets F (i * t) (j * t) t, o = 0 ∨ o = 1 := by
    intro o ho
    obtain ⟨k, hkmem, rfl⟩ := List.mem_map.mp ho
    have hk := List.mem_range.mp hkmem
    have e1 : fget F (i * t + k + 1, j * t) = Gpad up vp np ((i * t + k) + 1) (j * t) :=
      hLeft (k + 1) (by omega)
    have e2 : fget F (i * t + k, j * t) = Gpad up vp np (i * t + k) (j * t) :=
      hLeft k (by omega)
    rw [e1, e2]
    exact Gpad_step_down up vp np hu hv (i * t + k) (j * t) (by omega) (by omega)
  -- the lookup key is present in the precomputed table
  have hchu : ∀ c ∈ chunk up (i * t) t, c ∈ basesL := fun c hc =>
    hub c (List.mem_of_mem_drop (List.mem_of_mem_take hc))
  have hchv : ∀ c ∈ chunk vp (j * t) t, c ∈ basesL := fun c hc =>
    hvb c (List.mem_of_mem_drop (List.mem_of_mem_take hc))
  have hkey : validKeyB t (chunk up (i * t) t, chunk vp (j * t) t,
      rowOffsets F (i * t) (j * t) t, colOffsets F (i * t) (j * t) t) = true := by
    simp only [validKeyB, Bool.and_eq_true, beq_iff_eq, List.all_eq_true, Bool.or_eq_true]
    refine ⟨⟨⟨⟨chunk_length up (i * t) t (by omega), ?_⟩,
      ⟨chunk_length vp (j * t) t (by omega), ?_⟩⟩,
      ⟨by simp [rowOffsets], ?_⟩⟩, ⟨by simp [colOffsets], ?_⟩⟩
    · intro c hc
      simpa [List.contains, List.elem_iff] using hchu c hc
    · intro c hc
      simpa [List.contains, List.elem_iff] using hchv c hc
    · intro o ho
      rcases hfro01 o ho with rfl | rfl <;> simp
    · intro o ho
      rcases hfco01 o ho with rfl | rfl <;> simp
  -- the cumulative sums of the offsets are the boundary lists of the block
  have hrowB : cumsum (rowOffsets F (i * t) (j * t) t) =
      (List.range (t + 1)).map fun k =>
        Gpad up vp np (i * t) (j * t + k) - Gpad up vp np (i * t) (j * t) := by
    refine list_eq_of_getD ?_ ?_
    · simp [rowOffsets]
    · intro k hk
      rw [cumsum_length] at hk
      simp only [rowOffsets, List.length_map, List.length_range] at hk
      have htel := cumsum_telescope (rowOffsets F (i * t) (j * t) t)
        (fun k => Gpad up vp np (i * t) (j * t + k)) ?_ k ?_
      · rw [htel, getD_map_range _ _ k (by omega)]
        simp
      · intro k' hk'
        simp only [rowOffsets, List.length_map, List.length_range] at hk'
        exact hfro_getD k' hk'
      · simp only [rowOffsets, List.length_map, List.length_range]
        omega
  have hcolB : cumsum (colOffsets F (i * t) (j * t) t) =
      (List.range (t + 1)).map fun k =>
        Gpad up vp np (i * t + k) (j * t) - Gpad up vp np (i * t) (j * t) := by
    refine list_eq_of_getD ?_ ?_
    · simp [colOffsets]
    · intro k hk
      rw [cumsum_length] at hk
      simp only [colOffsets, List.length_map, List.length_range] at hk
      have htel := cumsum_telescope (colOffsets F (i * t) (j * t) t)
        (fun k => Gpad up vp np (i * t + k) (j * t)) ?_ k ?_
      · rw [htel, getD_map_range _ _ k (by omega)]
        simp
      · intro k' hk'
        simp only [colOffsets, List.length_map, List.length_range] at hk'
        exact hfco_getD k' hk'
      · simp only [colOffsets, List.length_map, List.length_range]
        omega
  -- the looked-up block grid is the global grid shifted by the corner value
  have hgrids : ∀ a b, a ≤ t → b ≤ t →
      precompute_grids t (chunk up (i * t) t, chunk vp (j * t) t,
        rowOffsets F (i * t) (j * t) t, colOffsets F (i * t) (j * t) t) a b =
      Gpad up vp np (i * t + a) (j * t + b) - Gpad up vp np (i * t) (j * t) := by
    intro a b ha hb
    rw [precompute_grids, if_pos hkey]
    simp only
    rw [hrowB, hcolB]
    exact block_locality up vp np hu hv (i * t) (j * t) t hrt hct a b ha hb
  -- characterize all cells after the write loop
  intro p hp
  simp only [blockStep]
  rw [show (j + 1) * t = j * t + t from Nat.succ_mul j t,
    show (i + 1) * t = i * t + t from Nat.succ_mul i t]
  have hv1 : ∀ k, k ≤ t → fget F (i * t, j * t) +
      precompute_grids t (chunk up (i * t) t, chunk vp (j * t) t,
        rowOffsets F (i * t) (j * t) t, colOffsets F (i * t) (j * t) t) k t =
      Gpad up vp np (i * t + k) (j * t + t) := by
    intro k hk
    rw [hoff, hgrids k t hk (le_refl t)]
    ring
  have hv2 : ∀ k, k ≤ t → fget F (i * t, j * t) +
      precompute_grids t (chunk up (i * t) t, chunk vp (j * t) t,
        rowOffsets F (i * t) (j * t) t, colOffsets F (i * t) (j * t) t) t k =
      Gpad up vp np (i * t + t) (j * t + k) := by
    intro k hk
    rw [hoff, hgrids t k (le_refl t) hk]
    ring
  refine Eq.trans (writeFold_fget (i * t) (j * t) t (fun q => Gpad up vp np q.1 q.2)
    (fun k => fget F (i * t, j * t) +
      precompute_grids t (chunk up (i * t) t, chunk vp (j * t) t,
        rowOffsets F (i * t) (j * t) t, colOffsets F (i * t) (j * t) t) k t)
    (fun k => fget F (i * t, j * t) +
      precompute_grids t (chunk up (i * t) t, chunk vp (j * t) t,
        rowOffsets F (i * t) (j * t) t, colOffsets F (i * t) (j * t) t) t k)
    hv1 hv2 F (t + 1) (le_refl _) p) ?_
  by_cases hcnd : (∃ k < t + 1, p = (i * t + k, j * t + t)) ∨
      (∃ k < t + 1, p = (i * t + t, j * t + k))
  · rw [if_pos hcnd]
  · rw [if_neg hcnd]
    rcases (writtenAt_succ_j np t sub i j hi hj p).mp hp with hold | hedge
    · exact hF p hold
    · exfalso
      rcases hedge with ⟨k, hk, rfl⟩ | ⟨k, hk, rfl⟩
      · exact hcnd (Or.inl ⟨k, by omega, rfl⟩)
      · exact hcnd (Or.inr ⟨k, by omega, rfl⟩)

end FourRussians

namespace FourRussians

theorem rowBlocks_inv (up vp : List Char) (np t sub : ℕ)
    (hu : up.length = np) (hv : vp.length = np) (hnp : np = sub * t)
    (hub : ∀ c ∈ up, c ∈ basesL) (hvb : ∀ c ∈ vp, c ∈ basesL)
    (i : ℕ) (hi : i < sub) (F : FMap)
    (hF : ∀ p, writtenAt np t sub i 0 p → fget F p = Gpad up vp np p.1 p.2) :
    ∀ jc, jc ≤ sub → ∀ p, writtenAt np t sub i jc p →
      fget (rowBlocks up vp t i F jc) p = Gpad up vp np p.1 p.2 := by
  intro jc
  induction jc with
  | zero => intro _ p hp; exact hF p hp
  | succ jc ihjc =>
    intro hjc p hp
    have hrw : rowBlocks up vp t i F (jc + 1) =
        blockStep up vp t (rowBlocks up vp t i F jc) (i, jc) := by
      rw [rowBlocks, List.range_succ, List.foldl_append, List.foldl_cons, List.foldl_nil]
      rfl
    rw [hrw]
    exact blockStep_inv up vp np t sub hu hv hnp hub hvb i jc hi (by omega)
      (rowBlocks up vp t i F jc) (fun q hq => ihjc (by omega) q hq) p hp

theorem allBlocks_inv (up vp : List Char) (np t sub : ℕ)
    (hu : up.length = np) (hv : vp.length = np) (hnp : np = sub * t)
    (hub : ∀ c ∈ up, c ∈ basesL) (hvb : ∀ c ∈ vp, c ∈ basesL) :
    ∀ ic, ic ≤ sub → ∀ p, writtenAt np t sub ic 0 p →
      fget (allBlocks up vp t sub np ic) p = Gpad up vp np p.1 p.2 := by
  intro ic
  induction ic with
  | zero =>
    intro _ p hp
    rcases hp with ⟨h2, h1⟩ | ⟨h1, h2⟩ | ⟨bi, bj, _, _, hlex, _⟩
    · rw [show allBlocks up vp t sub np 0 = initF np from rfl, fget_initF]
      obtain ⟨a, b⟩ := p
      simp only at h2 h1
      subst h2
      simp
    · rw [show allBlocks up vp t sub np 0 = initF np from rfl, fget_initF]
      obtain ⟨a, b⟩ := p
      simp only at h2 h1
      subst h1
      simp
    · omega
  | succ ic ihic =>
    intro hic p hp
    have hrw : allBlocks up vp t sub np (ic + 1) =
        rowBlocks up vp t ic (allBlocks up vp t sub np ic) sub := by
      rw [allBlocks, List.range_succ, List.foldl_append, List.foldl_cons, List.foldl_nil]
      rfl
    rw [hrw]
    exact rowBlocks_inv up vp np t sub hu hv hnp hub hvb ic (by omega)
      (allBlocks up vp t sub np ic) (fun q hq => ihic (by omega) q hq) sub (le_refl _)
      p ((writtenAt_row_advance np t sub ic p).mp hp)

/-! ### Properties of the padding loop arithmetic -/

theorem nextPowAux_ge (fuel : ℕ) : ∀ target cur, 1 ≤ cur → target ≤ 2 ^ fuel * cur →
    target ≤ nextPowAux fuel target cur := by
  induction fuel with
  | zero =>
    intro target cur h1 h2
    simpa [nextPowAux] using h2
  | succ fuel ihf =>
    intro target cur h1 h2
    rw [nextPowAux]
    split_ifs with hlt
    · refine ihf target (2 * cur) (by omega) ?_
      have hr : 2 ^ fuel * (2 * cur) = 2 ^ (fuel + 1) * cur := by ring
      omega
    · omega

theorem nextPowAux_pos (fuel : ℕ) : ∀ target cur, 1 ≤ cur → 1 ≤ nextPowAux fuel target cur := by
  induction fuel with
  | zero => intro target cur h1; simpa [nextPowAux] using h1
  | succ fuel ihf =>
    intro target cur h1
    rw [nextPowAux]
    split_ifs with hlt
    · exact ihf target (2 * cur) (by omega)
    · exact h1

theorem next_power_ge (target : ℕ) : target ≤ next_power_of_2 target := by
  refine nextPowAux_ge target target 1 (le_refl 1) ?_
  have := Nat.lt_two_pow target
  omega

theorem next_power_pos (target : ℕ) : 1 ≤ next_power_of_2 target :=
  nextPowAux_pos target target 1 (le_refl 1)

theorem paddedLen_ge_left (u v : List Char) : u.length ≤ paddedLen u v :=
  le_trans (le_max_left _ _) (next_power_ge _)

theorem paddedLen_ge_right (u v : List Char) : v.length ≤ paddedLen u v :=
  le_trans (le_max_right _ _) (next_power_ge _)

theorem paddedLen_pos (u v : List Char) : 1 ≤ paddedLen u v := next_power_pos _

theorem realBases_sub_basesL : ∀ c ∈ realBases, c ∈ basesL := by decide

theorem padded_chars (u : List Char) (np : ℕ) (hu : ∀ c ∈ u, c ∈ realBases) :
    ∀ c ∈ u ++ List.replicate (np - u.length) '$', c ∈ basesL := by
  intro c hc
  rcases List.mem_append.mp hc with h | h
  · exact realBases_sub_basesL c (hu c h)
  · rw [List.eq_of_mem_replicate h]
    decide

/-! ### Main correctness theorem of the block assembly -/

/-- Whenever the block-size assertion passes (t = 0 or t divides the padded
length), four_russians returns exactly the naive dp value of the unpadded
inputs. -/
theorem four_russians_correct (u v : List Char)
    (hu : ∀ c ∈ u, c ∈ realBases) (hv : ∀ c ∈ v, c ∈ realBases)
    (hok : blockSize u v = 0 ∨ paddedLen u v % blockSize u v = 0) :
    four_russians u v = some (naiveLCS u v) := by
  have hmnp : u.length ≤ paddedLen u v := paddedLen_ge_left u v
  have hnnp : v.length ≤ paddedLen u v := paddedLen_ge_right u v
  rcases Nat.eq_zero_or_pos (blockSize u v) with ht0 | htpos
  · rw [four_russians]
    simp only [ht0, if_pos]
    exact congrArg some (padding_main u v (paddedLen u v) hmnp hnnp hu)
  · have hmod : paddedLen u v % blockSize u v = 0 := by
      rcases hok with h | h
      · omega
      · exact h
    rw [four_russians]
    rw [if_neg (by omega), if_pos hmod]
    refine congrArg some ?_
    set np := paddedLen u v with hnpdef
    set t := blockSize u v with htdef
    set sub := np / t with hsubdef
    have hdvd : t ∣ np := Nat.dvd_of_mod_eq_zero hmod
    have hsubt : np = sub * t := by
      rw [hsubdef]
      exact (Nat.div_mul_cancel hdvd).symm
    have hnp1 : 1 ≤ np := paddedLen_pos u v
    have ht_le : t ≤ np := Nat.le_of_dvd (by omega) hdvd
    have hsub1 : 1 ≤ sub := Nat.div_pos ht_le (by omega)
    set up := u ++ List.replicate (np - u.length) '$' with hupdef
    set vp := v ++ List.replicate (np - v.length) '$' with hvpdef
    have hul : up.length = np := by
      rw [hupdef]
      simp
      omega
    have hvl : vp.length = np := by
      rw [hvpdef]
      simp
      omega
    have hub : ∀ c ∈ up, c ∈ basesL := padded_chars u np hu
    have hvb : ∀ c ∈ vp, c ∈ basesL := padded_chars v np hv
    have e2 : (sub - 1) * t + t = np := by
      have h2 : sub - 1 + 1 = sub := by omega
      calc (sub - 1) * t + t = (sub - 1 + 1) * t := (Nat.succ_mul (sub - 1) t).symm
        _ = sub * t := by rw [h2]
        _ = np := hsubt.symm
    have hwritten : writtenAt np t sub sub 0 (u.length, np) := by
      right; right
      rcases Nat.lt_or_ge u.length np with hlt | hge
      · have hbi : u.length / t < sub := by
          rw [Nat.div_lt_iff_lt_mul (by omega)]
          omega
        have e1 : u.length / t * t + u.length % t = u.length := by
          rw [Nat.add_comm]
          exact Nat.mod_add_div' u.length t
        have hmlt : u.length % t < t := Nat.mod_lt _ (by omega)
        refine ⟨u.length / t, sub - 1, hbi, by omega, Or.inl hbi,
          Or.inl ⟨u.length % t, by omega, ?_⟩⟩
        rw [Prod.ext_iff]
        refine ⟨by simp only; omega, by simp only; omega⟩
      · have heq : u.length = np := le_antisymm hmnp hge
        refine ⟨sub - 1, sub - 1, by omega, by omega, Or.inl (by omega),
          Or.inl ⟨t, le_refl t, ?_⟩⟩
        rw [Prod.ext_iff]
        refine ⟨by simp only; omega, by simp only; omega⟩
    have hfin := allBlocks_inv up vp np t sub hul hvl hsubt hub hvb sub (le_refl _)
      (u.length, np) hwritten
    rw [hfin]
    exact padding_main u v np hmnp hnnp hu

end FourRussians

namespace FourRussians

/-! ### A row-list evaluator for the zero-boundary dp grid, used to compute
concrete naive LCS values efficiently.  `naiveLCS_eq_fast` proves it agrees
with construct_lcs_grid. -/

def fillRowL (c : Char) : List Char → List ℤ → ℤ → ℤ → List ℤ
  | [], _, _, _ => []
  | ch :: vs, prevRest, diag, cur =>
    let up := prevRest.headD 0
    let val := if c = ch then max 0 (diag + 1) else max up cur
    val :: fillRowL c vs prevRest.tail up val

def rowL (u v : List Char) : ℕ → List ℤ
  | 0 => List.replicate (v.length + 1) 0
  | i + 1 =>
    let prev := rowL u v i
    0 :: fillRowL (u.getD i 'A') v prev.tail (prev.headD 0) 0

/-- Fast evaluator for `naiveLCS`. -/
def naiveLCSFast (u v : List Char) : ℤ := (rowL u v u.length).getD v.length 0

theorem headD_eq_getD (l : List ℤ) (d : ℤ) : l.headD d = l.getD 0 d := by
  cases l <;> rfl

theorem tail_getD (l : List ℤ) (k : ℕ) (d : ℤ) : l.tail.getD k d = l.getD (k + 1) d := by
  cases l <;> rfl

theorem fillRowL_length (c : Char) :
    ∀ (vs : List Char) (pr : List ℤ) (d cu : ℤ), (fillRowL c vs pr d cu).length = vs.length := by
  intro vs
  induction vs with
  | nil => intro pr d cu; rfl
  | cons ch vs ihv => intro pr d cu; simp [fillRowL, ihv]

theorem fillRowL_spec (c : Char) (v : List Char) (prevF curF : ℕ → ℤ)
    (hrec : ∀ j, j < v.length →
      curF (j + 1) = if c = v.getD j 'A' then max 0 (prevF j + 1)
                     else max (prevF (j + 1)) (curF j)) :
    ∀ (vs : List Char) (j0 : ℕ), vs = v.drop j0 →
      ∀ (prevRest : List ℤ) (diag cur : ℤ),
        (∀ k, j0 + 1 + k ≤ v.length → prevRest.getD k 0 = prevF (j0 + 1 + k)) →
        diag = prevF j0 → cur = curF j0 →
        ∀ k, k < vs.length → (fillRowL c vs prevRest diag cur).getD k 0 = curF (j0 + k + 1) := by
  intro vs
  induction vs with
  | nil => intro j0 _ pr diag cur _ _ _ k hk; simp at hk
  | cons ch vs ihv =>
    intro j0 hvs pr diag cur hpr hdiag hcur k hk
    have hj0 : j0 < v.length := by
      have hlen := congrArg List.length hvs
      simp only [List.length_cons, List.length_drop] at hlen
      omega
    have hch : ch = v.getD j0 'A' := by
      have hdrop : v.drop j0 = v.getD j0 'A' :: v.drop (j0 + 1) := by
        rw [List.getD_eq_getElem _ _ hj0]
        exact List.drop_eq_getElem_cons hj0
      rw [hdrop] at hvs
      exact (List.cons.injEq _ _ _ _ ▸ hvs).1
    have hvs' : vs = v.drop (j0 + 1) := by
      have hdrop : v.drop j0 = v.getD j0 'A' :: v.drop (j0 + 1) := by
        rw [List.getD_eq_getElem _ _ hj0]
        exact List.drop_eq_getElem_cons hj0
      rw [hdrop] at hvs
      exact (List.cons.injEq _ _ _ _ ▸ hvs).2
    have hup : pr.headD 0 = prevF (j0 + 1) := by
      rw [headD_eq_getD]
      have := hpr 0 (by omega)
      simpa using this
    have hval : (if c = ch then max 0 (diag + 1) else max (pr.headD 0) cur) = curF (j0 + 1) := by
      rw [hch, hdiag, hcur, hup, hrec j0 hj0]
    rcases k with _ | k'
    · rw [show (fillRowL c (ch :: vs) pr diag cur) =
        (if c = ch then max 0 (diag + 1) else max (pr.headD 0) cur) ::
          fillRowL c vs pr.tail (pr.headD 0)
            (if c = ch then max 0 (diag + 1) else max (pr.headD 0) cur) from rfl]
      simpa using hval
    · rw [show (fillRowL c (ch :: vs) pr diag cur) =
        (if c = ch then max 0 (diag + 1) else max (pr.headD 0) cur) ::
          fillRowL c vs pr.tail (pr.headD 0)
            (if c = ch then max 0 (diag + 1) else max (pr.headD 0) cur) from rfl]
      rw [show ((if c = ch then max 0 (diag + 1) else max (pr.headD 0) cur) ::
          fillRowL c vs pr.tail (pr.headD 0)
            (if c = ch then max 0 (diag + 1) else max (pr.headD 0) cur)).getD (k' + 1) 0 =
          (fillRowL c vs pr.tail (pr.headD 0)
            (if c = ch then max 0 (diag + 1) else max (pr.headD 0) cur)).getD k' 0 from rfl]
      have hrest : ∀ k, (j0 + 1) + 1 + k ≤ v.length →
          pr.tail.getD k 0 = prevF ((j0 + 1) + 1 + k) := by
        intro k hkb
        rw [tail_getD]
        have := hpr (k + 1) (by omega)
        rw [this]
        congr 1
        omega
      have := ihv (j0 + 1) hvs' pr.tail (pr.headD 0)
        (if c = ch then max 0 (diag + 1) else max (pr.headD 0) cur) hrest hup hval k'
        (by simp at hk; omega)
      rw [this]
      congr 1
      omega

theorem rowL_spec (u v : List Char) :
    ∀ i, (rowL u v i).length = v.length + 1 ∧
      ∀ j ≤ v.length, (rowL u v i).getD j 0 =
        construct_lcs_grid u v (List.replicate (u.length + 1) 0)
          (List.replicate (v.length + 1) 0) i j := by
  intro i
  induction i with
  | zero =>
    refine ⟨by simp [rowL], ?_⟩
    intro j hj
    simp [rowL]
  | succ i ihi =>
    have hlen : (rowL u v (i + 1)).length = v.length + 1 := by
      rw [show rowL u v (i + 1) = 0 :: fillRowL (u.getD i 'A') v (rowL u v i).tail
        ((rowL u v i).headD 0) 0 from rfl]
      simp [fillRowL_length]
    refine ⟨hlen, ?_⟩
    intro j hj
    rw [show rowL u v (i + 1) = 0 :: fillRowL (u.getD i 'A') v (rowL u v i).tail
      ((rowL u v i).headD 0) 0 from rfl]
    rcases j with _ | j'
    · simp
    · rw [show ((0 : ℤ) :: fillRowL (u.getD i 'A') v (rowL u v i).tail
        ((rowL u v i).headD 0) 0).getD (j' + 1) 0 =
        (fillRowL (u.getD i 'A') v (rowL u v i).tail ((rowL u v i).headD 0) 0).getD j' 0
        from rfl]
      have hspec := fillRowL_spec (u.getD i 'A') v
        (fun j => construct_lcs_grid u v (List.replicate (u.length + 1) 0)
          (List.replicate (v.length + 1) 0) i j)
        (fun j => construct_lcs_grid u v (List.replicate (u.length + 1) 0)
          (List.replicate (v.length + 1) 0) (i + 1) j)
        ?_ v 0 (by simp) (rowL u v i).tail ((rowL u v i).headD 0) 0 ?_ ?_ ?_ j' (by omega)
      · rw [hspec]
        have : 0 + j' + 1 = j' + 1 := by omega
        rw [this]
      · intro j hjv
        exact construct_succ_succ u v _ _ i j
      · intro k hkb
        rw [tail_getD]
        have := ihi.2 (k + 1) (by omega)
        rw [this]
        have harg : 0 + 1 + k = k + 1 := by omega
        rw [harg]
      · rw [headD_eq_getD]
        have := ihi.2 0 (by omega)
        rw [this]
      · simp

theorem naiveLCS_eq_fast (u v : List Char) : naiveLCS u v = naiveLCSFast u v := by
  rw [naiveLCS, naiveLCSFast, (rowL_spec u v u.length).2 v.length (le_refl _)]

end FourRussians

namespace FourRussians

/-! ### Counting and characterizing the enumeration of precompute_grids -/

theorem generate_strings_shift : ∀ (t : ℕ) (cur : List Char),
    generate_strings t cur = (generate_strings t []).map (fun s => cur ++ s) := by
  intro t
  induction t with
  | zero => intro cur; simp [generate_strings]
  | succ l ihl =>
    intro cur
    rw [show generate_strings (l + 1) cur =
      basesL.flatMap (fun b => generate_strings l (cur ++ [b])) from rfl]
    rw [show generate_strings (l + 1) [] =
      basesL.flatMap (fun b => generate_strings l ([] ++ [b])) from rfl]
    rw [List.map_flatMap]
    refine List.flatMap_congr ?_
    intro b _
    rw [ihl (cur ++ [b]), ihl ([] ++ [b])]
    simp [List.map_map, Function.comp, List.append_assoc]

theorem offset_vectors_shift : ∀ (t : ℕ) (cur : List ℤ),
    offset_vectors t cur = (offset_vectors t []).map (fun s => cur ++ s) := by
  intro t
  induction t with
  | zero => intro cur; simp [offset_vectors]
  | succ l ihl =>
    intro cur
    rw [show offset_vectors (l + 1) cur =
      ([0, 1] : List ℤ).flatMap (fun o => offset_vectors l (cur ++ [o])) from rfl]
    rw [show offset_vectors (l + 1) [] =
      ([0, 1] : List ℤ).flatMap (fun o => offset_vectors l ([] ++ [o])) from rfl]
    rw [List.map_flatMap]
    refine List.flatMap_congr ?_
    intro o _
    rw [ihl (cur ++ [o]), ihl ([] ++ [o])]
    simp [List.map_map, Function.comp, List.append_assoc]

theorem sum_map_const_nat {α : Type} (l : List α) (c : ℕ) :
    (l.map fun _ => c).sum = l.length * c := by
  induction l with
  | nil => simp
  | cons a l ihl => simp [ihl]; ring

theorem generate_strings_length : ∀ t, (generate_strings t []).length = 5 ^ t := by
  intro t
  induction t with
  | zero => rfl
  | succ l ihl =>
    rw [show generate_strings (l + 1) [] =
      basesL.flatMap (fun b => generate_strings l ([] ++ [b])) from rfl]
    rw [List.length_flatMap]
    have hb : ∀ b, (generate_strings l ([] ++ [b])).length = 5 ^ l := by
      intro b
      rw [generate_strings_shift l ([] ++ [b]), List.length_map, ihl]
    calc (basesL.map fun b => (generate_strings l ([] ++ [b])).length).sum
        = (basesL.map fun _ => 5 ^ l).sum := by
          refine congrArg List.sum (List.map_congr_left ?_)
          intro b _
          exact hb b
      _ = 5 ^ (l + 1) := by
          rw [sum_map_const_nat]
          rw [show basesL.length = 5 from rfl]
          ring

theorem offset_vectors_length : ∀ t, (offset_vectors t []).length = 2 ^ t := by
  intro t
  induction t with
  | zero => rfl
  | succ l ihl =>
    rw [show offset_vectors (l + 1) [] =
      ([0, 1] : List ℤ).flatMap (fun o => offset_vectors l ([] ++ [o])) from rfl]
    rw [List.length_flatMap]
    have hb : ∀ o, (offset_vectors l ([] ++ [o])).length = 2 ^ l := by
      intro o
      rw [offset_vectors_shift l ([] ++ [o]), List.length_map, ihl]
    calc (([0, 1] : List ℤ).map fun o => (offset_vectors l ([] ++ [o])).length).sum
        = (([0, 1] : List ℤ).map fun _ => 2 ^ l).sum := by
          refine congrArg List.sum (List.map_congr_left ?_)
          intro o _
          exact hb o
      _ = 2 ^ (l + 1) := by
          rw [sum_map_const_nat]
          simp
          ring

theorem mem_generate_strings : ∀ (t : ℕ) (s : List Char),
    s ∈ generate_strings t [] ↔ (s.length = t ∧ ∀ c ∈ s, c ∈ basesL) := by
  intro t
  induction t with
  | zero =>
    intro s
    constructor
    · intro hs
      simp only [generate_strings, List.mem_singleton] at hs
      subst hs
      simp
    · rintro ⟨h1, _⟩
      rw [List.length_eq_zero] at h1
      subst h1
      simp [generate_strings]
  | succ l ihl =>
    intro s
    rw [show generate_strings (l + 1) [] =
      basesL.flatMap (fun b => generate_strings l ([] ++ [b])) from rfl]
    rw [List.mem_flatMap]
    constructor
    · rintro ⟨b, hb, hs⟩
      rw [generate_strings_shift l ([] ++ [b]), List.mem_map] at hs
      obtain ⟨s', hs', rfl⟩ := hs
      have := (ihl s').mp hs'
      refine ⟨by simp; omega, ?_⟩
      intro c hc
      rcases List.mem_cons.mp (by simpa using hc) with rfl | hmem
      · exact hb
      · exact this.2 c hmem
    · rintro ⟨h1, h2⟩
      rcases s with _ | ⟨hd, tl⟩
      · simp at h1
      · refine ⟨hd, h2 hd (by simp), ?_⟩
        rw [generate_strings_shift l ([] ++ [hd]), List.mem_map]
        refine ⟨tl, (ihl tl).mpr ⟨by simpa using h1, fun c hc => h2 c (by simp [hc])⟩, by simp⟩

theorem mem_offset_vectors : ∀ (t : ℕ) (s : List ℤ),
    s ∈ offset_vectors t [] ↔ (s.length = t ∧ ∀ o ∈ s, o = 0 ∨ o = 1) := by
  intro t
  induction t with
  | zero =>
    intro s
    constructor
    · intro hs
      simp only [offset_vectors, List.mem_singleton] at hs
      subst hs
      simp
    · rintro ⟨h1, _⟩
      rw [List.length_eq_zero] at h1
      subst h1
      simp [offset_vectors]
  | succ l ihl =>
    intro s
    rw [show offset_vectors (l + 1) [] =
      ([0, 1] : List ℤ).flatMap (fun o => offset_vectors l ([] ++ [o])) from rfl]
    rw [List.mem_flatMap]
    constructor
    · rintro ⟨o, ho, hs⟩
      rw [offset_vectors_shift l ([] ++ [o]), List.mem_map] at hs
      obtain ⟨s', hs', rfl⟩ := hs
      have := (ihl s').mp hs'
      refine ⟨by simp; omega, ?_⟩
      intro x hx
      rcases List.mem_cons.mp (by simpa using hx) with rfl | hmem
      · simpa using ho
      · exact this.2 x hmem
    · rintro ⟨h1, h2⟩
      rcases s with _ | ⟨hd, tl⟩
      · simp at h1
      · refine ⟨hd, by simpa using h2 hd (by simp), ?_⟩
        rw [offset_vectors_shift l ([] ++ [hd]), List.mem_map]
        refine ⟨tl, (ihl tl).mpr ⟨by simpa using h1, fun o ho => h2 o (by simp [ho])⟩, by simp⟩

end FourRussians

namespace FourRussians

theorem generate_strings_nodup : ∀ t, (generate_strings t []).Nodup := by
  intro t
  induction t with
  | zero => simp [generate_strings]
  | succ l ihl =>
    rw [show generate_strings (l + 1) [] =
      basesL.flatMap (fun b => generate_strings l ([] ++ [b])) from rfl]
    have hform : ∀ b : Char, generate_strings l ([] ++ [b]) =
        (generate_strings l []).map (fun s => b :: s) := by
      intro b
      rw [generate_strings_shift]
      simp
    rw [List.nodup_flatMap]
    constructor
    · intro b _
      rw [hform b]
      refine List.Nodup.map ?_ ihl
      intro x y h
      injection h
    · have hpw : basesL.Pairwise (fun b b' => b ≠ b') := by decide
      refine hpw.imp ?_
      intro b b' hne s hs1 hs2
      simp only [hform, List.mem_map] at hs1 hs2
      obtain ⟨s1, _, heq1⟩ := hs1
      obtain ⟨s2, _, heq2⟩ := hs2
      rw [← heq2] at heq1
      injection heq1 with h1 _
      exact hne h1

theorem offset_vectors_nodup : ∀ t, (offset_vectors t []).Nodup := by
  intro t
  induction t with
  | zero => simp [offset_vectors]
  | succ l ihl =>
    rw [show offset_vectors (l + 1) [] =
      ([0, 1] : List ℤ).flatMap (fun o => offset_vectors l ([] ++ [o])) from rfl]
    have hform : ∀ o : ℤ, offset_vectors l ([] ++ [o]) =
        (offset_vectors l []).map (fun s => o :: s) := by
      intro o
      rw [offset_vectors_shift]
      simp
    rw [List.nodup_flatMap]
    constructor
    · intro o _
      rw [hform o]
      refine List.Nodup.map ?_ ihl
      intro x y h
      injection h
    · have hpw : ([0, 1] : List ℤ).Pairwise (fun o o' => o ≠ o') := by decide
      refine hpw.imp ?_
      intro o o' hne s hs1 hs2
      simp only [hform, List.mem_map] at hs1 hs2
      obtain ⟨s1, _, heq1⟩ := hs1
      obtain ⟨s2, _, heq2⟩ := hs2
      rw [← heq2] at heq1
      injection heq1 with h1 _
      exact hne h1

theorem length_flatMap_const {α β : Type} (l : List α) (f : α → List β) (c : ℕ)
    (h : ∀ a ∈ l, (f a).length = c) : (l.flatMap f).length = l.length * c := by
  rw [List.length_flatMap]
  calc (l.map fun a => (f a).length).sum = (l.map fun _ => c).sum := by
        refine congrArg List.sum (List.map_congr_left ?_)
        intro a ha
        exact h a ha
    _ = l.length * c := sum_map_const_nat l c

theorem precomputeKeys_length (t : ℕ) :
    (precomputeKeys t).length = 5 ^ (2 * t) * 4 ^ t := by
  rw [precomputeKeys]
  rw [length_flatMap_const _ _ (5 ^ t * (2 ^ t * 2 ^ t)) ?_, generate_strings_length]
  · have h5 : 5 ^ t * (5 ^ t * (2 ^ t * 2 ^ t)) = 5 ^ (2 * t) * 4 ^ t := by
      have e1 : 5 ^ (2 * t) = 5 ^ t * 5 ^ t := by
        rw [two_mul, pow_add]
      have e2 : (4 : ℕ) ^ t = 2 ^ t * 2 ^ t := by
        rw [show (4 : ℕ) = 2 * 2 from rfl, mul_pow]
      rw [e1, e2]
      ring
    rw [← h5]
  · intro u _
    rw [length_flatMap_const _ _ (2 ^ t * 2 ^ t) ?_, generate_strings_length]
    intro v _
    rw [length_flatMap_const _ _ (2 ^ t) ?_, offset_vectors_length]
    intro ro _
    rw [List.length_map, offset_vectors_length]

theorem precomputeKeys_nodup (t : ℕ) : (precomputeKeys t).Nodup := by
  rw [precomputeKeys, List.nodup_flatMap]
  constructor
  · intro u _
    rw [List.nodup_flatMap]
    constructor
    · intro v _
      rw [List.nodup_flatMap]
      constructor
      · intro ro _
        refine List.Nodup.map ?_ (offset_vectors_nodup t)
        intro x y h
        simpa using h
      · refine (offset_vectors_nodup t).imp ?_
        intro ro ro' hne k hk1 hk2
        rw [List.mem_map] at hk1 hk2
        obtain ⟨co1, _, rfl⟩ := hk1
        obtain ⟨co2, _, heq⟩ := hk2
        have := (Prod.ext_iff.mp heq).2
        have := (Prod.ext_iff.mp this).2
        have := (Prod.ext_iff.mp this).1
        exact hne this.symm
    · refine (generate_strings_nodup t).imp ?_
      intro v v' hne k hk1 hk2
      simp only [List.mem_flatMap, List.mem_map] at hk1 hk2
      obtain ⟨ro1, _, co1, _, rfl⟩ := hk1
      obtain ⟨ro2, _, co2, _, heq⟩ := hk2
      have := (Prod.ext_iff.mp heq).2
      have := (Prod.ext_iff.mp this).1
      exact hne this.symm
  · refine (generate_strings_nodup t).imp ?_
    intro u u' hne k hk1 hk2
    simp only [List.mem_flatMap, List.mem_map] at hk1 hk2
    obtain ⟨v1, _, ro1, _, co1, _, rfl⟩ := hk1
    obtain ⟨v2, _, ro2, _, co2, _, heq⟩ := hk2
    have := (Prod.ext_iff.mp heq).1
    exact hne this.symm

theorem mem_precomputeKeys (t : ℕ) (k : BlockKey) :
    k ∈ precomputeKeys t ↔ validKeyB t k = true := by
  obtain ⟨u, v, ro, co⟩ := k
  simp only [precomputeKeys, List.mem_flatMap, List.mem_map]
  constructor
  · rintro ⟨u', hu', v', hv', ro', hro', co', hco', heq⟩
    simp only [Prod.ext_iff] at heq
    obtain ⟨h1e, h2e, h3e, h4e⟩ := heq
    subst h1e
    subst h2e
    subst h3e
    subst h4e
    have h1 := (mem_generate_strings t _).mp hu'
    have h2 := (mem_generate_strings t _).mp hv'
    have h3 := (mem_offset_vectors t _).mp hro'
    have h4 := (mem_offset_vectors t _).mp hco'
    simp only [validKeyB, Bool.and_eq_true, beq_iff_eq, List.all_eq_true, Bool.or_eq_true]
    refine ⟨⟨⟨⟨h1.1, ?_⟩, ⟨h2.1, ?_⟩⟩, ⟨h3.1, ?_⟩⟩, ⟨h4.1, ?_⟩⟩
    · intro c hc
      simpa [List.contains, List.elem_iff] using h1.2 c hc
    · intro c hc
      simpa [List.contains, List.elem_iff] using h2.2 c hc
    · intro o ho
      rcases h3.2 o ho with rfl | rfl <;> simp
    · intro o ho
      rcases h4.2 o ho with rfl | rfl <;> simp
  · intro hvk
    simp only [validKeyB, Bool.and_eq_true, beq_iff_eq, List.all_eq_true, Bool.or_eq_true] at hvk
    obtain ⟨⟨⟨⟨h1l, h1c⟩, ⟨h2l, h2c⟩⟩, ⟨h3l, h3c⟩⟩, ⟨h4l, h4c⟩⟩ := hvk
    refine ⟨u, (mem_generate_strings t u).mpr ⟨h1l, ?_⟩,
      v, (mem_generate_strings t v).mpr ⟨h2l, ?_⟩,
      ro, (mem_offset_vectors t ro).mpr ⟨h3l, ?_⟩,
      co, (mem_offset_vectors t co).mpr ⟨h4l, ?_⟩, rfl⟩
    · intro c hc
      have := h1c c hc
      simpa [List.contains, List.elem_iff] using this
    · intro c hc
      have := h2c c hc
      simpa [List.contains, List.elem_iff] using this
    · intro o ho
      have := h3c o ho
      simpa using this
    · intro o ho
      have := h4c o ho
      simpa using this

end FourRussians

namespace FourRussians

/-! ### Grids over an explicit symbol-equality relation (for the sentinel
claims): the same fill as construct_lcs_grid with the match test abstracted. -/

def fillRowRel (mrel : Char → Char → Bool) (c : Char) (v : List Char) (left : ℤ)
    (prev : ℕ → ℤ) : ℕ → ℤ
  | 0 => left
  | j + 1 =>
    if mrel c (v.getD j 'A') then max 0 (prev j + 1)
    else max (prev (j + 1)) (fillRowRel mrel c v left prev j)

def lcsRowRel (mrel : Char → Char → Bool) (u v : List Char) (first_col first_row : List ℤ) :
    ℕ → ℕ → ℤ
  | 0 => fun j => first_row.getD j 0
  | i + 1 => fillRowRel mrel (u.getD i 'A') v (first_col.getD (i + 1) 0)
      (lcsRowRel mrel u v first_col first_row i)

def construct_lcs_grid_rel (mrel : Char → Char → Bool) (u v : List Char)
    (first_col first_row : List ℤ) (i j : ℕ) : ℤ :=
  lcsRowRel mrel u v first_col first_row i j

/-- The symbol equality the spec describes: the sentinel `$` matches nothing,
not even itself; real symbols match by equality.  (This is the spec's
relation, for comparison with the code's plain equality.) -/
def sentinel_blind_eq (a b : Char) : Bool := a == b && !(a == '$')

/-- The symbol equality the code actually implements, written out by cases:
`$` equals itself and nothing else, and real symbols match by equality. -/
def sentinel_self_eq (a b : Char) : Bool :=
  if a == '$' || b == '$' then a == '$' && b == '$' else a == b

theorem sentinel_self_eq_iff (a b : Char) : sentinel_self_eq a b = true ↔ a = b := by
  constructor
  · intro h
    rw [sentinel_self_eq] at h
    by_cases ha : a = '$'
    · subst ha
      by_cases hb : b = '$'
      · subst hb; rfl
      · simp [hb] at h
    · by_cases hb : b = '$'
      · subst hb
        simp [ha] at h
      · simpa [ha, hb] using h
  · rintro rfl
    rw [sentinel_self_eq]
    by_cases ha : a = '$' <;> simp [ha]

theorem construct_rel_eq (mrel : Char → Char → Bool)
    (hm : ∀ a b, mrel a b = true ↔ a = b) :
    ∀ (u v : List Char) (fc fr : List ℤ) (i j : ℕ),
      construct_lcs_grid_rel mrel u v fc fr i j = construct_lcs_grid u v fc fr i j := by
  intro u v fc fr
  suffices H : ∀ s i j, i + j = s →
      construct_lcs_grid_rel mrel u v fc fr i j = construct_lcs_grid u v fc fr i j by
    exact fun i j => H (i + j) i j rfl
  intro s
  induction s using Nat.strong_induction_on with
  | _ s ih =>
    intro i j hs
    rcases i with _ | a
    · rfl
    · rcases j with _ | b
      · rfl
      · rw [show construct_lcs_grid_rel mrel u v fc fr (a + 1) (b + 1) =
          if mrel (u.getD a 'A') (v.getD b 'A') then
            max 0 (construct_lcs_grid_rel mrel u v fc fr a b + 1)
          else
            max (construct_lcs_grid_rel mrel u v fc fr a (b + 1))
              (construct_lcs_grid_rel mrel u v fc fr (a + 1) b) from rfl]
        rw [construct_succ_succ]
        rw [ih (a + b) (by omega) a b rfl, ih (a + (b + 1)) (by omega) a (b + 1) rfl,
          ih ((a + 1) + b) (by omega) (a + 1) b rfl]
        refine if_congr (hm _ _) rfl rfl

theorem construct_eq_sentinel_self (u v : List Char) (fc fr : List ℤ) (i j : ℕ) :
    construct_lcs_grid u v fc fr i j =
      construct_lcs_grid_rel sentinel_self_eq u v fc fr i j :=
  (construct_rel_eq sentinel_self_eq sentinel_self_eq_iff u v fc fr i j).symm

end FourRussians

namespace FourRussians

/-- The state of the F map just before block (i, j) is processed: all rows
of blocks before i, then the first j blocks of row i.  In the run of
four_russians, block (i, j) is processed exactly on this state. -/
def FAt (up vp : List Char) (t sub np i j : ℕ) : FMap :=
  rowBlocks up vp t i (allBlocks up vp t sub np i) j

/-- The key four_russians looks up in the precomputed table for block (i, j)
(cf. the key expression inside blockStep). -/
def blockKeyAt (up vp : List Char) (t sub np i j : ℕ) : BlockKey :=
  (chunk up (i * t) t, chunk vp (j * t) t,
    rowOffsets (FAt up vp t sub np i j) (i * t) (j * t) t,
    colOffsets (FAt up vp t sub np i j) (i * t) (j * t) t)

/-- If F agrees with the global grid on all cells written before block
(i, j), then the key looked up for block (i, j) is one of the keys the
precomputation enumerated. -/
theorem lookup_key_valid (up vp : List Char) (np t sub : ℕ)
    (hu : up.length = np) (hv : vp.length = np) (hnp : np = sub * t)
    (hub : ∀ c ∈ up, c ∈ basesL) (hvb : ∀ c ∈ vp, c ∈ basesL)
    (i j : ℕ) (hi : i < sub) (hj : j < sub) (F : FMap)
    (hF : ∀ p, writtenAt np t sub i j p → fget F p = Gpad up vp np p.1 p.2) :
    validKeyB t (chunk up (i * t) t, chunk vp (j * t) t,
      rowOffsets F (i * t) (j * t) t, colOffsets F (i * t) (j * t) t) = true := by
  have hrt : i * t + t ≤ np := by
    rw [hnp, ← Nat.succ_mul]
    exact Nat.mul_le_mul_right t hi
  have hct : j * t + t ≤ np := by
    rw [hnp, ← Nat.succ_mul]
    exact Nat.mul_le_mul_right t hj
  have hTop : ∀ k, k ≤ t → fget F (i * t, j * t + k) = Gpad up vp np (i * t) (j * t + k) := by
    intro k hk
    have hw : writtenAt np t sub i j (i * t, j * t + k) := by
      rcases Nat.eq_zero_or_pos i with rfl | hipos
      · right; left
        constructor
        · simp
        · simp only
          omega
      · obtain ⟨i', rfl⟩ : ∃ i', i = i' + 1 := ⟨i - 1, by omega⟩
        right; right
        refine ⟨i', j, by omega, hj, Or.inl (by omega), Or.inr ⟨k, hk, ?_⟩⟩
        rw [Nat.succ_mul]
    exact hF _ hw
  have hLeft : ∀ k, k ≤ t → fget F (i * t + k, j * t) = Gpad up vp np (i * t + k) (j * t) := by
    intro k hk
    have hw : writtenAt np t sub i j (i * t + k, j * t) := by
      rcases Nat.eq_zero_or_pos j with rfl | hjpos
      · left
        constructor
        · simp
        · simp only
          omega
      · obtain ⟨j', rfl⟩ : ∃ j', j = j' + 1 := ⟨j - 1, by omega⟩
        right; right
        refine ⟨i, j', hi, by omega, Or.inr ⟨rfl, by omega⟩, Or.inl ⟨k, hk, ?_⟩⟩
        rw [Nat.succ_mul]
    exact hF _ hw
  have hfro01 : ∀ o ∈ rowOffsets F (i * t) (j * t) t, o = 0 ∨ o = 1 := by
    intro o ho
    obtain ⟨k, hkmem, rfl⟩ := List.mem_map.mp ho
    have hk := List.mem_range.mp hkmem
    have e1 : fget F (i * t, j * t + k + 1) = Gpad up vp np (i * t) ((j * t + k) + 1) :=
      hTop (k + 1) (by omega)
    have e2 : fget F (i * t, j * t + k) = Gpad up vp np (i * t) (j * t + k) :=
      hTop k (by omega)
    rw [e1, e2]
    exact Gpad_step_right up vp np hu hv (i * t) (j * t + k) (by omega) (by omega)
  have hfco01 : ∀ o ∈ colOffsets F (i * t) (j * t) t, o = 0 ∨ o = 1 := by
    intro o ho
    obtain ⟨k, hkmem, rfl⟩ := List.mem_map.mp ho
    have hk := List.mem_range.mp hkmem
    have e1 : fget F (i * t + k + 1, j * t) = Gpad up vp np ((i * t + k) + 1) (j * t) :=
      hLeft (k + 1) (by omega)
    have e2 : fget F (i * t + k, j * t) = Gpad up vp np (i * t + k) (j * t) :=
      hLeft k (by omega)
    rw [e1, e2]
    exact Gpad_step_down up vp np hu hv (i * t + k) (j * t) (by omega) (by omega)
  have hchu : ∀ c ∈ chunk up (i * t) t, c ∈ basesL := fun c hc =>
    hub c (List.mem_of_mem_drop (List.mem_of_mem_take hc))
  have hchv : ∀ c ∈ chunk vp (j * t) t, c ∈ basesL := fun c hc =>
    hvb c (List.mem_of_mem_drop (List.mem_of_mem_take hc))
  simp only [validKeyB, Bool.and_eq_true, beq_iff_eq, List.all_eq_true, Bool.or_eq_true]
  refine ⟨⟨⟨⟨chunk_length up (i * t) t (by omega), ?_⟩,
    ⟨chunk_length vp (j * t) t (by omega), ?_⟩⟩,
    ⟨by simp [rowOffsets], ?_⟩⟩, ⟨by simp [colOffsets], ?_⟩⟩
  · intro c hc
    simpa [List.contains, List.elem_iff] using hchu c hc
  · intro c hc
    simpa [List.contains, List.elem_iff] using hchv c hc
  · intro o ho
    rcases hfro01 o ho with rfl | rfl <;> simp
  · intro o ho
    rcases hfco01 o ho with rfl | rfl <;> simp

/-- The only way four_russians fails is the block-size assertion: exactly
when the block size is at least 1 and does not divide the padded length. -/
theorem four_russians_none_iff (u v : List Char) :
    four_russians u v = none ↔
      (1 ≤ blockSize u v ∧ paddedLen u v % blockSize u v ≠ 0) := by
  rw [four_russians]
  split_ifs with h1 h2
  · simp
    omega
  · simp
    omega
  · simp
    omega

end FourRussians

namespace FourRussians

/-! ### Claim theorems -/

/-- C1 (counterexample): the input of 33 copies of A is non-empty and over
the alphabet, yet four_russians fails with the block-size assertion (the
padded length is 64, the block size is 3, and 3 does not divide 64) instead
of returning the LCS length. -/
theorem c1_counterexample :
    (List.replicate 33 'A' : List Char) ≠ [] ∧
    (∀ c ∈ (List.replicate 33 'A' : List Char), c ∈ realBases) ∧
    four_russians (List.replicate 33 'A') (List.replicate 33 'A') = none := by
  refine ⟨by decide, by decide, by decide⟩

/-- C1 (amended): for every pair of non-empty sequences over the alphabet
such that the computed block size is 0 or divides the padded length,
four_russians returns exactly the value of the naive dynamic-programming
reference (construct_lcs_grid with all-zero boundaries) on the unpadded
inputs. -/
theorem c1_four_russians_exact (u v : List Char)
    (hne1 : u ≠ []) (hne2 : v ≠ [])
    (hu : ∀ c ∈ u, c ∈ realBases) (hv : ∀ c ∈ v, c ∈ realBases)
    (hok : blockSize u v = 0 ∨ paddedLen u v % blockSize u v = 0) :
    four_russians u v = some (naiveLCS u v) :=
  four_russians_correct u v hu hv hok

theorem c1_witness :
    ((['A', 'T', 'C', 'G'] : List Char) ≠ [] ∧
      (∀ c ∈ (['A', 'T', 'C', 'G'] : List Char), c ∈ realBases) ∧
      (blockSize ['A', 'T', 'C', 'G'] ['A', 'T', 'C', 'G'] = 0 ∨
        paddedLen ['A', 'T', 'C', 'G'] ['A', 'T', 'C', 'G'] %
          blockSize ['A', 'T', 'C', 'G'] ['A', 'T', 'C', 'G'] = 0)) ∧
    four_russians ['A', 'T', 'C', 'G'] ['A', 'T', 'C', 'G'] =
      some (naiveLCS ['A', 'T', 'C', 'G'] ['A', 'T', 'C', 'G']) :=
  ⟨⟨by decide, by decide, Or.inr (by decide)⟩,
    c1_four_russians_exact _ _ (by decide) (by decide) (by decide) (by decide)
      (Or.inr (by decide))⟩

/-- C2 (counterexample): the inputs ["X"], ["X"] contain a symbol outside
the alphabet, yet the call proceeds with no error of any kind and returns
the number 1. -/
theorem c2_counterexample :
    ('X' ∉ realBases) ∧ four_russians ['X'] ['X'] = some 1 := by
  refine ⟨by decide, by decide⟩

/-- C2 (amended): four_russians performs no alphabet validation and no
InvalidAlphabet error exists in the code: a call whose input contains a
symbol outside the alphabet proceeds normally, failing only under the same
block-size condition as any other input and otherwise returning a number. -/
theorem c2_no_alphabet_error (u v : List Char)
    (h : ∃ c, (c ∈ u ∨ c ∈ v) ∧ c ∉ realBases) :
    (four_russians u v).isSome ↔
      ¬ (1 ≤ blockSize u v ∧ paddedLen u v % blockSize u v ≠ 0) := by
  rw [← four_russians_none_iff]
  exact Option.isSome_iff_ne_none

theorem c2_witness :
    (∃ c, (c ∈ (['X'] : List Char) ∨ c ∈ (['X'] : List Char)) ∧ c ∉ realBases) ∧
    ((four_russians ['X'] ['X']).isSome ↔
      ¬ (1 ≤ blockSize ['X'] ['X'] ∧ paddedLen ['X'] ['X'] % blockSize ['X'] ['X'] ≠ 0)) :=
  ⟨⟨'X', Or.inl (by decide), by decide⟩,
    c2_no_alphabet_error ['X'] ['X'] ⟨'X', Or.inl (by decide), by decide⟩⟩

/-- C3: for non-empty inputs over the alphabet whose computed block size t
is at least 1, four_russians fails (returns none, modelling the
AssertionError raised before any result is produced) if and only if the
padded length is not an exact multiple of t. -/
theorem c3_blocksize_error_iff (u v : List Char)
    (hne1 : u ≠ []) (hne2 : v ≠ [])
    (hu : ∀ c ∈ u, c ∈ realBases) (hv : ∀ c ∈ v, c ∈ realBases)
    (ht : 1 ≤ blockSize u v) :
    four_russians u v = none ↔ ¬ (paddedLen u v % blockSize u v = 0) := by
  rw [four_russians_none_iff]
  constructor
  · rintro ⟨_, h⟩
    exact h
  · intro h
    exact ⟨ht, h⟩

theorem c3_witness :
    ((List.replicate 33 'A' : List Char) ≠ [] ∧
      (∀ c ∈ (List.replicate 33 'A' : List Char), c ∈ realBases) ∧
      1 ≤ blockSize (List.replicate 33 'A') (List.replicate 33 'A')) ∧
    four_russians (List.replicate 33 'A') (List.replicate 33 'A') = none :=
  ⟨⟨by decide, by decide, by decide⟩,
    (c3_blocksize_error_iff _ _ (by decide) (by decide) (by decide) (by decide)
      (by decide)).mpr (by decide)⟩

end FourRussians

namespace FourRussians

/-- C4 (counterexample): the block table contains the key whose contents are
the single sentinel on both axes, and its stored grid scores cell (1,1) as
a match (Python's `'$' == '$'` is true), giving 1; under the spec's
relation, in which the sentinel matches nothing, the cell would be 0. -/
theorem c4_counterexample :
    validKeyB 1 (['$'], ['$'], [0], [0]) = true ∧
    precompute_grids 1 (['$'], ['$'], [0], [0]) 1 1 = 1 ∧
    construct_lcs_grid_rel sentinel_blind_eq ['$'] ['$'] [0, 0] [0, 0] 1 1 = 0 ∧
    precompute_grids 1 (['$'], ['$'], [0], [0]) 1 1 ≠
      construct_lcs_grid_rel sentinel_blind_eq ['$'] ['$'] [0, 0] [0, 0] 1 1 := by
  refine ⟨by decide, by decide, by decide, by decide⟩

/-- C4 (amended): the sentinel never equals a real alphabet base, but it
does equal itself: every grid the system builds coincides with the grid
computed under the equality relation in which the sentinel matches exactly
itself and real bases match by plain equality. -/
theorem c4_sentinel_matches_only_itself :
    ((realBases.all fun c => !(sentinel_self_eq '$' c) && !(sentinel_self_eq c '$')) = true) ∧
    sentinel_self_eq '$' '$' = true ∧
    ∀ (u v : List Char) (fc fr : List ℤ) (i j : ℕ),
      construct_lcs_grid u v fc fr i j = construct_lcs_grid_rel sentinel_self_eq u v fc fr i j :=
  ⟨by decide, by decide, construct_eq_sentinel_self⟩

/-- C5 (counterexample): at block size 1, precompute_grids enumerates 5
content strings per axis (the four bases plus the sentinel), not 4, and
stores 100 entries, not 4^3 = 64. -/
theorem c5_counterexample :
    (generate_strings 1 []).length = 5 ∧ (generate_strings 1 []).length ≠ 4 ∧
    (precomputeKeys 1).length = 100 ∧ (precomputeKeys 1).length ≠ 4 ^ 3 := by
  refine ⟨by decide, by decide, by decide, by decide⟩

/-- C5 (amended): for every block size t, precompute_grids enumerates
exactly 5^t content strings per axis (alphabet of 4 bases plus the
sentinel) and stores exactly 5^(2t) * 4^t distinct block-key entries. -/
theorem c5_enumeration_counts (t : ℕ) :
    (generate_strings t []).length = 5 ^ t ∧
    (precomputeKeys t).length = 5 ^ (2 * t) * 4 ^ t ∧
    (precomputeKeys t).Nodup :=
  ⟨generate_strings_length t, precomputeKeys_length t, precomputeKeys_nodup t⟩

/-- C6: for equal-length sequences and boundary arrays that are
non-negative, have consecutive differences 0 or 1, and agree at index 0,
the grid is monotone non-decreasing in each direction and grid-adjacent
cells differ by exactly 0 or 1. -/
theorem c6_monotone_lipschitz (u v : List Char) (fc fr : List ℤ)
    (hlen : u.length = v.length)
    (hfc : fc.length = u.length + 1) (hfr : fr.length = v.length + 1)
    (hfcn : nonnegL fc) (hfrn : nonnegL fr) (hfcs : stepOk fc) (hfrs : stepOk fr)
    (h0 : fr.getD 0 0 = fc.getD 0 0) :
    (∀ i j, i + 1 ≤ u.length → j ≤ v.length →
      construct_lcs_grid u v fc fr i j ≤ construct_lcs_grid u v fc fr (i + 1) j ∧
      (construct_lcs_grid u v fc fr (i + 1) j - construct_lcs_grid u v fc fr i j = 0 ∨
       construct_lcs_grid u v fc fr (i + 1) j - construct_lcs_grid u v fc fr i j = 1)) ∧
    (∀ i j, i ≤ u.length → j + 1 ≤ v.length →
      construct_lcs_grid u v fc fr i j ≤ construct_lcs_grid u v fc fr i (j + 1) ∧
      (construct_lcs_grid u v fc fr i (j + 1) - construct_lcs_grid u v fc fr i j = 0 ∨
       construct_lcs_grid u v fc fr i (j + 1) - construct_lcs_grid u v fc fr i j = 1)) := by
  constructor
  · intro i j hi hj
    have h := grid_step_down u v fc fr hfc hfr hfcn hfrn hfcs hfrs h0 i j hi hj
    exact ⟨by omega, h⟩
  · intro i j hi hj
    have h := grid_step_right u v fc fr hfc hfr hfcn hfrn hfcs hfrs h0 i j hi hj
    exact ⟨by omega, h⟩

theorem c6_witness :
    ((['A'] : List Char).length = (['T'] : List Char).length ∧
      nonnegL [0, 1] ∧ nonnegL [0, 0] ∧ stepOk [0, 1] ∧ stepOk [0, 0] ∧
      ([0, 0] : List ℤ).getD 0 0 = ([0, 1] : List ℤ).getD 0 0) ∧
    (construct_lcs_grid ['A'] ['T'] [0, 1] [0, 0] 0 0 ≤
      construct_lcs_grid ['A'] ['T'] [0, 1] [0, 0] 1 0 ∧
      (construct_lcs_grid ['A'] ['T'] [0, 1] [0, 0] 1 0 -
        construct_lcs_grid ['A'] ['T'] [0, 1] [0, 0] 0 0 = 0 ∨
       construct_lcs_grid ['A'] ['T'] [0, 1] [0, 0] 1 0 -
        construct_lcs_grid ['A'] ['T'] [0, 1] [0, 0] 0 0 = 1)) :=
  ⟨⟨by decide, by decide, by decide, by decide, by decide, by decide⟩,
    (c6_monotone_lipschitz ['A'] ['T'] [0, 1] [0, 0] (by decide) (by decide) (by decide)
      (by decide) (by decide) (by decide) (by decide) (by decide)).1 0 0 (by decide)
      (by decide)⟩

/-- C7 (counterexample): with boundary arrays first_col = [0,0] and
first_row = [1,1] (both non-negative, monotone, steps 0/1, but disagreeing
at index 0), the returned grid does NOT have column 0 equal to first_col:
cell (0,0) holds first_row[0] = 1, because the source's first_row
initialization loop overwrites the first_col one at (0,0). -/
theorem c7_counterexample :
    nonnegL [0, 0] ∧ stepOk [0, 0] ∧ nonnegL [1, 1] ∧ stepOk [1, 1] ∧
    construct_lcs_grid ['A'] ['A'] [0, 0] [1, 1] 0 0 = 1 ∧
    construct_lcs_grid ['A'] ['A'] [0, 0] [1, 1] 0 0 ≠ ([0, 0] : List ℤ).getD 0 0 := by
  refine ⟨by decide, by decide, by decide, by decide, by decide, by decide⟩

/-- C7 (amended): under the additional hypothesis that the two boundary
arrays agree at index 0, the grid satisfies exactly the stated recurrence,
with row 0 equal to first_row and column 0 equal to first_col; on a match
the score is the diagonal plus one (non-negativity removes the clamp). -/
theorem c7_grid_recurrence (u v : List Char) (fc fr : List ℤ)
    (hlen : u.length = v.length)
    (hfc : fc.length = u.length + 1) (hfr : fr.length = v.length + 1)
    (hfcn : nonnegL fc) (hfrn : nonnegL fr) (hfcs : stepOk fc) (hfrs : stepOk fr)
    (h0 : fr.getD 0 0 = fc.getD 0 0) :
    (∀ j, j ≤ v.length → construct_lcs_grid u v fc fr 0 j = fr.getD j 0) ∧
    (∀ i, i ≤ u.length → construct_lcs_grid u v fc fr i 0 = fc.getD i 0) ∧
    (∀ i j, i < u.length → j < v.length →
      construct_lcs_grid u v fc fr (i + 1) (j + 1) =
        if u.getD i 'A' = v.getD j 'A' then construct_lcs_grid u v fc fr i j + 1
        else max (construct_lcs_grid u v fc fr i (j + 1))
          (construct_lcs_grid u v fc fr (i + 1) j)) := by
  refine ⟨fun j _ => construct_zero u v fc fr j, ?_, ?_⟩
  · intro i hi
    rcases i with _ | i'
    · rw [construct_zero]
      exact h0
    · exact construct_succ_zero u v fc fr i'
  · intro i j hi hj
    rw [construct_succ_succ]
    split_ifs with hc
    · have hd := grid_nonneg u v fc fr hfc hfr hfcn hfrn hfcs hfrs h0 i j (by omega) (by omega)
      rw [max_eq_right (by omega)]
    · rfl

theorem c7_witness :
    ((['A'] : List Char).length = (['A'] : List Char).length ∧
      nonnegL [0, 0] ∧ nonnegL [0, 0] ∧ stepOk [0, 0] ∧ stepOk [0, 0] ∧
      ([0, 0] : List ℤ).getD 0 0 = ([0, 0] : List ℤ).getD 0 0) ∧
    construct_lcs_grid ['A'] ['A'] [0, 0] [0, 0] (0 + 1) (0 + 1) =
      (if (['A'] : List Char).getD 0 'A' = (['A'] : List Char).getD 0 'A'
        then construct_lcs_grid ['A'] ['A'] [0, 0] [0, 0] 0 0 + 1
        else max (construct_lcs_grid ['A'] ['A'] [0, 0] [0, 0] 0 1)
          (construct_lcs_grid ['A'] ['A'] [0, 0] [0, 0] 1 0)) :=
  ⟨⟨by decide, by decide, by decide, by decide, by decide, by decide⟩,
    (c7_grid_recurrence ['A'] ['A'] [0, 0] [0, 0] (by decide) (by decide) (by decide)
      (by decide) (by decide) (by decide) (by decide) (by decide)).2.2 0 0 (by decide)
      (by decide)⟩

end FourRussians

namespace FourRussians

/-- C8: for every block size t ≥ 1 and every key of the precomputed table,
the stored (t+1) x (t+1) grid has its top-left value 0 and all values in
the interval from 0 to t. -/
theorem c8_block_grid_bounds (t : ℕ) (ht : 1 ≤ t) (k : BlockKey)
    (hk : validKeyB t k = true) :
    precompute_grids t k 0 0 = 0 ∧
    ∀ i j, i ≤ t → j ≤ t →
      0 ≤ precompute_grids t k i j ∧ precompute_grids t k i j ≤ (t : ℤ) := by
  obtain ⟨u, v, ro, co⟩ := k
  have hk' := hk
  simp only [validKeyB, Bool.and_eq_true, beq_iff_eq, List.all_eq_true, Bool.or_eq_true] at hk'
  obtain ⟨⟨⟨⟨h1l, _⟩, ⟨h2l, _⟩⟩, ⟨h3l, h3c⟩⟩, ⟨h4l, h4c⟩⟩ := hk'
  have h3c' : ∀ o ∈ ro, o = 0 ∨ o = 1 := by
    intro o ho
    have := h3c o ho
    simpa using this
  have h4c' : ∀ o ∈ co, o = 0 ∨ o = 1 := by
    intro o ho
    have := h4c o ho
    simpa using this
  rw [precompute_grids, if_pos hk]
  simp only
  constructor
  · rw [construct_zero, cumsum_zero]
  · intro i j hi hj
    constructor
    · exact grid_nonneg u v (cumsum co) (cumsum ro)
        (by rw [cumsum_length, h4l, h1l]) (by rw [cumsum_length, h3l, h2l])
        (cumsum_nonneg co h4c') (cumsum_nonneg ro h3c')
        (cumsum_stepOk co h4c') (cumsum_stepOk ro h3c')
        (by rw [cumsum_zero, cumsum_zero]) i j (by omega) (by omega)
    · have hle := grid_le_max u v (cumsum co) (cumsum ro)
        (fun a ha => cumsum_le co h4c' a (by omega))
        (fun b hb => cumsum_le ro h3c' b (by omega)) i j (by omega) (by omega)
      have hmax : ((max i j : ℕ) : ℤ) ≤ (t : ℤ) := by omega
      omega

theorem c8_witness :
    (1 ≤ 1 ∧ validKeyB 1 (['A'], ['A'], [0], [0]) = true) ∧
    (precompute_grids 1 (['A'], ['A'], [0], [0]) 0 0 = 0 ∧
      (0 ≤ precompute_grids 1 (['A'], ['A'], [0], [0]) 1 1 ∧
        precompute_grids 1 (['A'], ['A'], [0], [0]) 1 1 ≤ (1 : ℤ))) :=
  ⟨⟨le_refl 1, by decide⟩,
    ⟨(c8_block_grid_bounds 1 (by decide) (['A'], ['A'], [0], [0]) (by decide)).1,
      (c8_block_grid_bounds 1 (by decide) (['A'], ['A'], [0], [0]) (by decide)).2 1 1
        (by decide) (by decide)⟩⟩

set_option maxRecDepth 40000 in
/-- C9: the four concrete scenarios hold exactly as stated. -/
theorem c9_concrete_scenarios :
    four_russians "GACGTAGCATAAGCGC".toList "TGCAACGTATAACGGG".toList = some 11 ∧
    four_russians "TCAGTACTAGTTATCAGTCTAGTCAGCTACTA".toList
      "GTCAGTACTAGTTATCAGTCTAGTCAGCTACT".toList = some 31 ∧
    four_russians "ATCG".toList "ATCG".toList = some 4 ∧
    four_russians "AAAA".toList "TTTT".toList = some 0 := by
  refine ⟨?_, ?_, ?_, ?_⟩ <;>
  · rw [four_russians_correct _ _ (by decide) (by decide) (Or.inr (by decide)),
      naiveLCS_eq_fast]
    decide

/-- C10 (counterexample): with the out-of-alphabet input "XXXX" the
execution does reach the block-assembly loop (block size 1 divides the
padded length 4), yet the very first key looked up is not among the
precomputed keys, so the values written into the main grid come from the
defaultdict's silent empty default (and the call returns the number 0). -/
theorem c10_counterexample :
    1 ≤ blockSize ['X', 'X', 'X', 'X'] ['X', 'X', 'X', 'X'] ∧
    paddedLen ['X', 'X', 'X', 'X'] ['X', 'X', 'X', 'X'] %
      blockSize ['X', 'X', 'X', 'X'] ['X', 'X', 'X', 'X'] = 0 ∧
    validKeyB 1 (blockKeyAt ['X', 'X', 'X', 'X'] ['X', 'X', 'X', 'X'] 1 4 4 0 0) = false ∧
    four_russians ['X', 'X', 'X', 'X'] ['X', 'X', 'X', 'X'] = some 0 := by
  refine ⟨by decide, by decide, by decide, by decide⟩

/-- C10 (amended): for inputs over the alphabet, in every execution that
reaches the block-assembly loop every key looked up in the precomputed
table is present (it is one of the enumerated keys), so the defaultdict's
silent default branch never supplies a value written into the main grid. -/
theorem c10_all_keys_present (u v : List Char)
    (hu : ∀ c ∈ u, c ∈ realBases) (hv : ∀ c ∈ v, c ∈ realBases)
    (ht : 1 ≤ blockSize u v) (hmod : paddedLen u v % blockSize u v = 0) :
    ∀ i j, i < paddedLen u v / blockSize u v → j < paddedLen u v / blockSize u v →
      blockKeyAt (u ++ List.replicate (paddedLen u v - u.length) '$')
        (v ++ List.replicate (paddedLen u v - v.length) '$')
        (blockSize u v) (paddedLen u v / blockSize u v) (paddedLen u v) i j ∈
        precomputeKeys (blockSize u v) := by
  intro i j hi hj
  have hmnp : u.length ≤ paddedLen u v := paddedLen_ge_left u v
  have hnnp : v.length ≤ paddedLen u v := paddedLen_ge_right u v
  have hdvd : blockSize u v ∣ paddedLen u v := Nat.dvd_of_mod_eq_zero hmod
  have hsubt : paddedLen u v = (paddedLen u v / blockSize u v) * blockSize u v :=
    (Nat.div_mul_cancel hdvd).symm
  have hul : (u ++ List.replicate (paddedLen u v - u.length) '$').length = paddedLen u v := by
    simp
    omega
  have hvl : (v ++ List.replicate (paddedLen u v - v.length) '$').length = paddedLen u v := by
    simp
    omega
  have hub := padded_chars u (paddedLen u v) hu
  have hvb := padded_chars v (paddedLen u v) hv
  have hINV0 := allBlocks_inv (u ++ List.replicate (paddedLen u v - u.length) '$')
    (v ++ List.replicate (paddedLen u v - v.length) '$')
    (paddedLen u v) (blockSize u v) (paddedLen u v / blockSize u v)
    hul hvl hsubt hub hvb i (le_of_lt hi)
  have hINV := rowBlocks_inv (u ++ List.replicate (paddedLen u v - u.length) '$')
    (v ++ List.replicate (paddedLen u v - v.length) '$')
    (paddedLen u v) (blockSize u v) (paddedLen u v / blockSize u v)
    hul hvl hsubt hub hvb i hi _ hINV0 j (le_of_lt hj)
  rw [mem_precomputeKeys]
  exact lookup_key_valid (u ++ List.replicate (paddedLen u v - u.length) '$')
    (v ++ List.replicate (paddedLen u v - v.length) '$')
    (paddedLen u v) (blockSize u v) (paddedLen u v / blockSize u v)
    hul hvl hsubt hub hvb i j hi hj _ hINV

theorem c10_witness :
    ((∀ c ∈ (['A', 'T', 'C', 'G'] : List Char), c ∈ realBases) ∧
      1 ≤ blockSize ['A', 'T', 'C', 'G'] ['A', 'T', 'C', 'G'] ∧
      paddedLen ['A', 'T', 'C', 'G'] ['A', 'T', 'C', 'G'] %
        blockSize ['A', 'T', 'C', 'G'] ['A', 'T', 'C', 'G'] = 0) ∧
    blockKeyAt
      (['A', 'T', 'C', 'G'] ++
        List.replicate (paddedLen ['A', 'T', 'C', 'G'] ['A', 'T', 'C', 'G'] -
          (['A', 'T', 'C', 'G'] : List Char).length) '$')
      (['A', 'T', 'C', 'G'] ++
        List.replicate (paddedLen ['A', 'T', 'C', 'G'] ['A', 'T', 'C', 'G'] -
          (['A', 'T', 'C', 'G'] : List Char).length) '$')
      (blockSize ['A', 'T', 'C', 'G'] ['A', 'T', 'C', 'G'])
      (paddedLen ['A', 'T', 'C', 'G'] ['A', 'T', 'C', 'G'] /
        blockSize ['A', 'T', 'C', 'G'] ['A', 'T', 'C', 'G'])
      (paddedLen ['A', 'T', 'C', 'G'] ['A', 'T', 'C', 'G']) 0 0 ∈
      precomputeKeys (blockSize ['A', 'T', 'C', 'G'] ['A', 'T', 'C', 'G']) :=
  ⟨⟨by decide, by decide, by decide⟩,
    c10_all_keys_present ['A', 'T', 'C', 'G'] ['A', 'T', 'C', 'G'] (by decide) (by decide)
      (by decide) (by decide) 0 0 (by decide) (by decide)⟩

end FourRussians

namespace FourRussians

/-- Sanity: the fuelled model of `int(math.log(n, 4))` is exactly the
mathematical floor of the base-4 logarithm. -/
theorem log4Aux_eq (fuel : ℕ) : ∀ n ≤ fuel, log4Aux fuel n = Nat.log 4 n := by
  induction fuel with
  | zero =>
    intro n hn
    obtain rfl : n = 0 := by omega
    simp [log4Aux]
  | succ fuel ihf =>
    intro n hn
    rw [log4Aux]
    split_ifs with h
    · exact (Nat.log_of_lt h).symm
    · rw [ihf (n / 4) (by omega)]
      exact (Nat.log_of_one_lt_of_le (by omega) (by omega)).symm

theorem log4_eq_natLog (n : ℕ) : log4 n = Nat.log 4 n := log4Aux_eq n n (le_refl n)

end FourRussians
